import Mathlib

/-!
# lachain-communication-hub: the test hub client (`testhub.go`)

A shallow embedding of the RBC emulation client that sits on top of the
communication hub, and of the drain loop of its `main` function.

Conventions of the embedding:

* a Go `[]byte` is a `List Nat` (each element a byte value);
* `uint32` values are naturals, reduced `% 2 ^ 32` wherever the source performs
  `uint32` arithmetic;
* a run-time panic of the Go program (slice bounds, index out of range, nil
  dereference of `&msg[0]`) is the result `Except.error Err.panic`;
* the calls `SendMessage(...)` to the hub library are recorded, in order, in
  the field `sent`; the messages handed to `Process` are recorded, in order, in
  the field `processed`;
* writes to standard output (`fmt.Printf`, `fmt.Println`) are not modelled.
-/

namespace TestHub

/-! ## Run-time failures -/

/-- Ways in which an evaluation of the model stops without a result. -/
inductive Err where
  /-- A Go run-time panic. -/
  | panic
  /-- The recursion budget of the model was exhausted. -/
  | outOfFuel
  deriving DecidableEq, Repr

/-! ## Byte slices and `encoding/binary` -/

/-- Wrap-around of `uint32` arithmetic. -/
def u32 (n : Nat) : Nat := n % 2 ^ 32

/-- The constant `bufSize` of `testhub.go`. -/
def bufSize : Nat := 10000

/-- Go slice expression `b[lo:hi]` on a slice whose capacity equals its length:
panics unless `lo ≤ hi ≤ cap(b)`. -/
def slice (b : List Nat) (lo hi : Nat) : Except Err (List Nat) :=
  if lo ≤ hi ∧ hi ≤ b.length then .ok ((b.drop lo).take (hi - lo)) else .error .panic

/-- Go `binary.LittleEndian.Uint32(b)`: panics when `b` has fewer than four bytes
(`_ = b[3]`), otherwise `b[0] | b[1]<<8 | b[2]<<16 | b[3]<<24`. -/
def LittleEndianUint32 (b : List Nat) : Except Err Nat :=
  match b with
  | b0 :: b1 :: b2 :: b3 :: _ => .ok (b0 ||| (b1 <<< 8) ||| (b2 <<< 16) ||| (b3 <<< 24))
  | _ => .error .panic

/-- The inner `for i := 0; i < msgCount; i++` loop of `main`, with `remaining`
iterations still to run, the cursor `ptr : uint32`, and the callee
`protocol.Process` abstracted as `process`. -/
def decodeLoop {σ : Type} (process : List Nat → σ → Except Err σ) (buffer : List Nat) :
    Nat → Nat → σ → Except Err σ
  | 0, _, s => .ok s
  | remaining + 1, ptr, s => do
    let hdr ← slice buffer ptr (u32 (ptr + 4))
    let msgLen ← LittleEndianUint32 hdr
    let ptr := u32 (ptr + 4)
    let msg ← slice buffer ptr (u32 (ptr + msgLen))
    let s ← process msg s
    decodeLoop process buffer remaining (u32 (ptr + msgLen)) s

/-- One pass of the body of the outer loop of `main` after `GetMessages` returned
`msgCount` (an `int`; the caller skips the pass for `-1`): `ptr := uint32(0)` and
the inner loop runs `msgCount` times, or not at all when `msgCount ≤ 0`. -/
def decodeMessages {σ : Type} (process : List Nat → σ → Except Err σ) (buffer : List Nat)
    (msgCount : Int) (s : σ) : Except Err σ :=
  decodeLoop process buffer msgCount.toNat 0 s

/-- A callee that only records what it is handed. -/
def record (msg : List Nat) (log : List (List Nat)) : Except Err (List (List Nat)) :=
  .ok (log ++ [msg])

/-- Little-endian 4-byte encoding of a length (`binary.LittleEndian.PutUint32`):
`byte(v), byte(v>>8), byte(v>>16), byte(v>>24)`. -/
def PutUint32 (v : Nat) : List Nat :=
  [v % 256, (v >>> 8) % 256, (v >>> 16) % 256, (v >>> 24) % 256]

/-- The packing the `GetMessages` contract describes: every payload preceded by
its length as a 4-byte little-endian integer, entries laid out contiguously. -/
def pack : List (List Nat) → List Nat
  | [] => []
  | p :: ps => PutUint32 p.length ++ p ++ pack ps

/-! ## `strings.Split` and `getPeersCount` -/

/-- Go `strings.Split(s, ",")` on the characters of `s`: the pieces between
consecutive commas; a string without a comma (the empty string included) gives
the one-element list holding the string itself. -/
def splitComma : List Char → List (List Char)
  | [] => [[]]
  | c :: cs =>
    if c = ',' then [] :: splitComma cs
    else
      match splitComma cs with
      | [] => [[c]]
      | piece :: rest => (c :: piece) :: rest

/-- Source function `getPeersCount`: `uint32(len(strings.Split(peers, ",")))`. -/
def getPeersCount (peers : String) : Nat :=
  u32 (splitComma peers.toList).length

/-- The string obtained by joining addresses with `","` (Go `strings.Join`). -/
def joinComma : List (List Char) → List Char
  | [] => []
  | [a] => a
  | a :: b :: rest => a ++ ',' :: joinComma (b :: rest)

/-! ## `encoding/json` on `map[string]uint32` -/

/-- A Go `map[string]uint32` as a list of key/value pairs; the `nil` map and the
empty map are both `[]`. -/
abbrev JsonMap := List (String × Nat)

/-- Go map indexing `data[key]`: the stored value, or the zero value `0` when the
key is absent (also on a `nil` map). -/
def JsonMap.get (data : JsonMap) (key : String) : Nat :=
  (data.lookup key).getD 0

/-- The bytes of an ASCII string. -/
def bytesOf (s : String) : List Nat := s.toList.map Char.toNat

/-- One `"key":value` member of a JSON object. -/
def member (kv : String × Nat) : List Nat :=
  [34] ++ bytesOf kv.1 ++ [34, 58] ++ bytesOf (Nat.repr kv.2)

/-- Members separated by commas. -/
def members : List (String × Nat) → List Nat
  | [] => []
  | [kv] => member kv
  | kv :: kv2 :: rest => member kv ++ 44 :: members (kv2 :: rest)

/-- Byte-wise lexicographic order on keys, the order in which `json.Marshal`
emits the keys of a map. -/
def keyLe : List Nat → List Nat → Bool
  | [], _ => true
  | _ :: _, [] => false
  | a :: as, b :: bs => decide (a < b) || (a == b && keyLe as bs)

/-- Go `json.Marshal` on a `map[string]uint32` whose keys are plain ASCII words:
the object `{"k1":v1,...}` with the keys in sorted order and the values in
decimal. It never fails on such a map. -/
def marshal (data : JsonMap) : List Nat :=
  123 :: members
    (data.insertionSort (fun a b => keyLe (bytesOf a.1) (bytesOf b.1) = true)) ++ [125]

/-- The map literal `{"type":1, "from":p.idx, "val":data["from"]}` of `Process`. -/
def echoMap (idx val : Nat) : JsonMap := [("type", 1), ("from", idx), ("val", val)]

/-- The map literal `{"type":2, "from":p.idx}` of `Process`. -/
def readyMap (idx : Nat) : JsonMap := [("type", 2), ("from", idx)]

/-- The map literal `{"type":0, "from":p.idx}` of `BroadcastValMessage`. -/
def valMap (idx : Nat) : JsonMap := [("type", 0), ("from", idx)]

/-! ## The parts of the program that live outside `testhub.go` -/

/-- What `testhub.go` uses and does not define: the package variable `ZeroPub`
(the broadcast target) and the decoder `json.Unmarshal` into a
`map[string]uint32`, given as the content of the map after the call (`[]` when the
map is left `nil`; the returned error is only printed by the caller). -/
structure Ext where
  ZeroPub : List Nat
  unmarshal : List Nat → JsonMap

/-- Go conversion `C.int(n)` of a length: the low 32 bits, read as a signed
integer. It is `n` itself for `n < 2 ^ 31`. -/
def cint (n : Nat) : Int := Int.bmod n (2 ^ 32)

/-- One call `SendMessage(target, targetLen, payload, payloadLen)`: the bytes
behind the two pointers and the two lengths passed. -/
structure SendCall where
  target : List Nat
  targetLen : Int
  payload : List Nat
  payloadLen : Int
  deriving DecidableEq, Repr

/-! ## The RBC emulation -/

/-- Source type `RBCEmulation`; `echos` is the `map[uint32][]bool`. -/
structure RBCEmulation where
  idx : Nat
  peerNumber : Nat
  vals : List Bool
  echos : List (Nat × List Bool)
  readys : List Bool
  deriving DecidableEq, Repr

/-- A node together with the observable history of a run: the `SendMessage`
calls issued so far and the messages handed to `Process` so far. -/
structure Hub where
  node : RBCEmulation
  sent : List SendCall
  processed : List (List Nat)
  deriving DecidableEq, Repr

/-- Source function `NewRBCEmulation`: all flags false, one row of `participants`
flags under each key `i < participants`. -/
def NewRBCEmulation (idx participants : Nat) : RBCEmulation where
  idx := idx
  peerNumber := participants
  vals := List.replicate participants false
  echos := (List.range participants).map (fun i => (i, List.replicate participants false))
  readys := List.replicate participants false

/-- The two statements of `main` that create the protocol:
`participants := getPeersCount(config.Bootstraps)` and
`protocol := NewRBCEmulation(config.Idx, participants)`. -/
def startProtocol (idx : Nat) (bootstraps : String) : RBCEmulation :=
  NewRBCEmulation idx (getPeersCount bootstraps)

/-- A freshly built node with an empty history. -/
def newHub (idx participants : Nat) : Hub where
  node := NewRBCEmulation idx participants
  sent := []
  processed := []

/-- The assignment `p.echos[frm][val] = true` on an existing row: the row stored
under `frm` gets the flag, every other row is left alone. -/
def setEcho (echos : List (Nat × List Bool)) (frm val : Nat) : List (Nat × List Bool) :=
  echos.map (fun e => if e.1 = frm then (e.1, e.2.set val true) else e)

/-- The double `range` loop of `Process`: `ready` stays true iff no flag of any
row is false. -/
def allEchos (echos : List (Nat × List Bool)) : Bool :=
  echos.all (fun e => e.2.all (fun v => v))

/-- The call `SendMessage(unsafe.Pointer(&ZeroPub[0]), C.int(len(ZeroPub)),
unsafe.Pointer(&msg[0]), C.int(len(msg)))` of `BroadcastMessage`. -/
def broadcastCall (E : Ext) (msg : List Nat) : SendCall where
  target := E.ZeroPub
  targetLen := cint E.ZeroPub.length
  payload := msg
  payloadLen := cint msg.length

/-- Source function `BroadcastMessage`, with the callee `thisNode.Process` passed
as `proc`: `&ZeroPub[0]` and `&msg[0]` panic on an empty slice; otherwise one
`SendMessage` call is issued and the message is handed to `proc`. -/
def BroadcastMessageWith (E : Ext) (proc : List Nat → Hub → Except Err Hub)
    (msg : List Nat) (h : Hub) : Except Err Hub :=
  if E.ZeroPub = [] ∨ msg = [] then .error .panic
  else
    proc msg { h with sent := h.sent ++ [broadcastCall E msg] }

/-- Source method `RBCEmulation.Process`. The first argument bounds the depth of
the nested calls `Process → BroadcastMessage → Process`. -/
def Process (E : Ext) : Nat → List Nat → Hub → Except Err Hub
  | 0, _, _ => .error .outOfFuel
  | fuel + 1, msg, h =>
    let data := E.unmarshal msg
    let h := { h with processed := h.processed ++ [msg] }
    let ty := data.get "type"
    let frm := data.get "from"
    if ty = 0 then
      if frm < h.node.vals.length then
        let h := { h with node := { h.node with vals := h.node.vals.set frm true } }
        BroadcastMessageWith E (Process E fuel) (marshal (echoMap h.node.idx frm)) h
      else .error .panic
    else if ty = 1 then
      let val := data.get "val"
      match h.node.echos.lookup frm with
      | none => .error .panic
      | some row =>
        if val < row.length then
          let h := { h with node := { h.node with echos := setEcho h.node.echos frm val } }
          if allEchos h.node.echos then
            BroadcastMessageWith E (Process E fuel) (marshal (readyMap h.node.idx)) h
          else .ok h
        else .error .panic
    else if ty = 2 then
      if frm < h.node.readys.length then
        .ok { h with node := { h.node with readys := h.node.readys.set frm true } }
      else .error .panic
    else .ok h

/-- Source function `BroadcastMessage` with `thisNode.Process` as callee. -/
def BroadcastMessage (E : Ext) (fuel : Nat) (msg : List Nat) (h : Hub) : Except Err Hub :=
  BroadcastMessageWith E (Process E fuel) msg h

/-- Source method `BroadcastValMessage`. -/
def BroadcastValMessage (E : Ext) (fuel : Nat) (h : Hub) : Except Err Hub :=
  BroadcastMessage E fuel (marshal (valMap h.node.idx)) h

/-- Source method `IsReady`: false at the first false flag of `readys`. -/
def IsReady (p : RBCEmulation) : Bool :=
  p.readys.all (fun v => v)

/-- Handing a list of received messages to `Process`, one after the other. -/
def processAll (E : Ext) (fuel : Nat) : List (List Nat) → Hub → Except Err Hub
  | [], h => .ok h
  | msg :: rest, h =>
    match Process E fuel msg h with
    | .ok h1 => processAll E fuel rest h1
    | .error e => .error e

/-! ## A small decoder, used to instantiate `Ext` -/

/-- Scanner over the bytes of an object `{"k1":v1,...}`: mode `0` is between
members, mode `1` inside a key, mode `2` after a key (colon and digits). -/
def scanObject : List Nat → Nat → List Char → Nat → JsonMap → JsonMap
  | [], _, _, _, acc => acc
  | b :: bs, mode, key, num, acc =>
    if mode = 0 then
      if b = 34 then scanObject bs 1 [] 0 acc else scanObject bs 0 [] 0 acc
    else if mode = 1 then
      if b = 34 then scanObject bs 2 key 0 acc
      else scanObject bs 1 (key ++ [Char.ofNat b]) 0 acc
    else
      if 48 ≤ b ∧ b ≤ 57 then scanObject bs 2 key (num * 10 + (b - 48)) acc
      else if b = 58 then scanObject bs 2 key num acc
      else scanObject bs 0 [] 0 (acc ++ [(String.mk key, num)])

/-- A decoder for the objects `marshal` produces. -/
def simpleUnmarshal (msg : List Nat) : JsonMap :=
  scanObject msg 0 [] 0 []

/-- An instance of the environment: a 33-byte all-zero `ZeroPub` (the size of a
compressed public key) and the small decoder. -/
def sampleExt : Ext where
  ZeroPub := List.replicate 33 0
  unmarshal := simpleUnmarshal

/-! ## Vocabulary of the statements -/

/-- The `"type"` field `data["type"]` that `Process` reads from a message. -/
def msgType (E : Ext) (msg : List Nat) : Nat := (E.unmarshal msg).get "type"

/-- The `"from"` field `data["from"]` that `Process` reads from a message. -/
def msgFrom (E : Ext) (msg : List Nat) : Nat := (E.unmarshal msg).get "from"

/-- The `"val"` field `data["val"]` that `Process` reads from a message. -/
def msgVal (E : Ext) (msg : List Nat) : Nat := (E.unmarshal msg).get "val"

/-- The flag `p.vals[j]` (false outside the slice). -/
def valFlag (p : RBCEmulation) (j : Nat) : Bool := p.vals.getD j false

/-- The flag `p.echos[i][j]` (false when the row or the position is missing). -/
def echoFlag (p : RBCEmulation) (i j : Nat) : Bool :=
  ((p.echos.lookup i).getD []).getD j false

/-- The flag `p.readys[i]` (false outside the slice). -/
def readyFlag (p : RBCEmulation) (i : Nat) : Bool := p.readys.getD i false

/-- The shape every node built by `NewRBCEmulation` has and `Process` keeps:
`peerNumber` flags in `vals` and in `readys`, and one row of `peerNumber` flags
under each key below `peerNumber`. -/
def WF (p : RBCEmulation) : Prop :=
  p.vals.length = p.peerNumber ∧ p.readys.length = p.peerNumber ∧
  p.echos.map Prod.fst = List.range p.peerNumber ∧
  ∀ e ∈ p.echos, e.2.length = p.peerNumber

instance (p : RBCEmulation) : Decidable (WF p) := by
  unfold WF; infer_instance

/-- The decoder reads back the messages this node broadcasts: each ECHO
`{"type":1,"from":idx,"val":j}` with `j < n` and the READY
`{"type":2,"from":idx}`, as `json.Unmarshal` does on the output of
`json.Marshal`. -/
def ReadsBack (E : Ext) (idx n : Nat) : Prop :=
  (∀ j, j < n →
    msgType E (marshal (echoMap idx j)) = 1 ∧ msgFrom E (marshal (echoMap idx j)) = idx ∧
    msgVal E (marshal (echoMap idx j)) = j) ∧
  msgType E (marshal (readyMap idx)) = 2 ∧ msgFrom E (marshal (readyMap idx)) = idx

instance (E : Ext) (idx n : Nat) : Decidable (ReadsBack E idx n) := by
  unfold ReadsBack; infer_instance

/-- The hub after `msg` was handed to `Process`. -/
def Hub.logged (h : Hub) (msg : List Nat) : Hub :=
  { h with processed := h.processed ++ [msg] }

/-- The hub after `BroadcastMessage` issued its `SendMessage` call for `msg`. -/
def Hub.sending (E : Ext) (h : Hub) (msg : List Nat) : Hub :=
  { h with sent := h.sent ++ [broadcastCall E msg] }

/-- The hub after `p.vals[j] = true`. -/
def Hub.withVal (h : Hub) (j : Nat) : Hub :=
  { h with node := { h.node with vals := h.node.vals.set j true } }

/-- The hub after `p.echos[i][j] = true`. -/
def Hub.withEcho (h : Hub) (i j : Nat) : Hub :=
  { h with node := { h.node with echos := setEcho h.node.echos i j } }

/-- The hub after `p.readys[i] = true`. -/
def Hub.withReady (h : Hub) (i : Nat) : Hub :=
  { h with node := { h.node with readys := h.node.readys.set i true } }

/-- The hub after an ECHO `msg` carrying `(i, j)` was processed by a well-formed
node: the flag is set, and when this completes the table the READY of the node
is sent, delivered to the node itself and recorded in `readys`. -/
def afterEcho (E : Ext) (h : Hub) (msg : List Nat) (i j : Nat) : Hub :=
  if allEchos (setEcho h.node.echos i j) then
    (((((h.logged msg).withEcho i j).sending E (marshal (readyMap h.node.idx))).logged
      (marshal (readyMap h.node.idx))).withReady h.node.idx)
  else (h.logged msg).withEcho i j

/-- The hub after a VAL `msg` from `j` was processed by a well-formed node: the
flag is set, the ECHO is sent and delivered to the node itself. -/
def afterVal (E : Ext) (h : Hub) (msg : List Nat) (j : Nat) : Hub :=
  afterEcho E (((h.logged msg).withVal j).sending E (marshal (echoMap h.node.idx j)))
    (marshal (echoMap h.node.idx j)) h.node.idx j

/-- No flag of `p` that is set is cleared in `q`. -/
def FlagsKept (p q : RBCEmulation) : Prop :=
  (∀ j, valFlag p j = true → valFlag q j = true) ∧
  (∀ i j, echoFlag p i j = true → echoFlag q i j = true) ∧
  (∀ i, readyFlag p i = true → readyFlag q i = true)

/-- What `Process` never changes between two hubs: set flags stay set, the
slices keep their lengths, `idx` and `peerNumber` are fixed, and the two
histories only grow. -/
def Grows (h h' : Hub) : Prop :=
  FlagsKept h.node h'.node ∧
  h'.node.vals.length = h.node.vals.length ∧
  h'.node.readys.length = h.node.readys.length ∧
  h'.node.idx = h.node.idx ∧ h'.node.peerNumber = h.node.peerNumber ∧
  h.sent <+: h'.sent ∧ h.processed <+: h'.processed

/-- The bookkeeping behind `IsReady`: the flag `readys[i]` is set exactly when `i`
is a position of `readys` and a READY message (type 2) from `i` is among the
messages handed to `Process`. -/
def ReadyLog (E : Ext) (h : Hub) : Prop :=
  ∀ i, readyFlag h.node i = true ↔
    (i < h.node.readys.length ∧ ∃ m ∈ h.processed, msgType E m = 2 ∧ msgFrom E m = i)

end TestHub

/-! ## The peer hub exercised by `main_test.go`

The package `peer` (`peer.New`, `Register`, `SetStreamHandlerFn`,
`SendMessageToPeer`) is not part of the sources at hand; only its tests are. The
definitions of this section follow the specification of the hub, sections 3 and
4.3 to 4.6. -/

namespace PeerModel

/-- Modelled from the spec: the `AccountKey` of section 3, the long-term public
key of a validator, as its bytes. -/
abbrev AccountKey := List Nat

/-- Modelled from the spec: the fingerprint of a `TransportIdentity` (section 3),
as its bytes. -/
abbrev Fingerprint := List Nat

/-- Modelled from the spec: the `RegistrationRecord` of section 3,
`{AccountKey, TransportIdentity fingerprint, Signature}`. -/
structure RegistrationRecord where
  accountKey : AccountKey
  fingerprint : Fingerprint
  signature : List Nat
  deriving DecidableEq, Repr

/-- Modelled from the spec: the `Frame` of section 3, `{length, payload}`, the
payload opaque to the hub. -/
structure Frame where
  length : Nat
  payload : List Nat
  deriving DecidableEq, Repr

/-- Modelled from the spec: what Inbound Dispatch (section 4.5) reads from a
stream, classified by its leading tag as a registration or an application
frame. -/
inductive Inbound where
  | registration (record : RegistrationRecord)
  | application (frame : Frame)
  deriving DecidableEq, Repr

/-- Modelled from the spec: the `PendingSend` of section 3,
`{AccountKey, Frame, reliable, attemptCount}` (the retry time is left out). -/
structure PendingSend where
  accountKey : AccountKey
  frame : Frame
  reliable : Bool
  attemptCount : Nat
  deriving DecidableEq, Repr

/-- Modelled from the spec: one hub, that is its transport identity, its
`PeerRegistry` (account key to registration record), whether a handler is
installed together with the payloads the handler was invoked with, the
`BoundaryQueue`, and the set of `PendingSend`s. -/
structure Peer where
  identity : Fingerprint
  registry : List (AccountKey × RegistrationRecord)
  handlerInstalled : Bool
  handled : List (List Nat)
  queue : List Frame
  pending : List PendingSend
  deriving DecidableEq, Repr

/-- Modelled from the spec: `Lookup(accountKey)` of section 4.3, the current
transport identity or "unknown". -/
def Lookup (p : Peer) (key : AccountKey) : Option Fingerprint :=
  (p.registry.lookup key).map (fun r => r.fingerprint)

/-- Modelled from the spec: `OnReceiveRegistration(record)` of section 4.3. The
record is installed only if `Verify` (section 4.1, passed as `verify`) succeeds,
a later valid registration superseding an earlier one; an invalid record is
discarded silently. -/
def OnReceiveRegistration (verify : Fingerprint → List Nat → AccountKey → Bool)
    (p : Peer) (r : RegistrationRecord) : Peer :=
  if verify r.fingerprint r.signature r.accountKey then
    { p with registry :=
        (r.accountKey, r) :: p.registry.filter (fun e => decide (e.1 ≠ r.accountKey)) }
  else p

/-- Modelled from the spec: `SetStreamHandlerFn` of section 4.5, installing the
handler. -/
def SetStreamHandlerFn (p : Peer) : Peer :=
  { p with handlerInstalled := true }

/-- Modelled from the spec: the Boundary Queue of section 4.6 under a capacity;
the oldest unread frame is evicted only when the capacity is exceeded. -/
def enqueue (capacity : Nat) (queue : List Frame) (f : Frame) : List Frame :=
  if queue.length < capacity then queue ++ [f] else queue.drop 1 ++ [f]

/-- Modelled from the spec: Inbound Dispatch of section 4.5. A registration
frame goes to the Peer Registry, an application frame to the installed handler,
or to the Boundary Queue when no handler is installed. -/
def Dispatch (verify : Fingerprint → List Nat → AccountKey → Bool) (capacity : Nat)
    (p : Peer) : Inbound → Peer
  | .registration r => OnReceiveRegistration verify p r
  | .application f =>
    if p.handlerInstalled then { p with handled := p.handled ++ [f.payload] }
    else { p with queue := enqueue capacity p.queue f }

/-- Modelled from the spec: `SendMessageToPeer(accountKey, payload, reliable)` of
section 4.4. The recipient is resolved via `Lookup`; once resolved the frame is
written to a stream to that transport identity (the second component); if
unresolved the send is kept as a `PendingSend` under `reliable = true` and
dropped otherwise. -/
def SendMessageToPeer (p : Peer) (key : AccountKey) (payload : List Nat) (reliable : Bool) :
    Peer × Option (Fingerprint × Frame) :=
  match Lookup p key with
  | some fp => (p, some (fp, { length := payload.length, payload := payload }))
  | none =>
    if reliable then
      ({ p with pending := p.pending ++
          [{ accountKey := key, frame := { length := payload.length, payload := payload },
             reliable := true, attemptCount := 0 }] }, none)
    else (p, none)

/-- Modelled from the spec: one pass of the retry scheduler of section 4.4 over
the pending sends, with re-resolution on each attempt. A send whose recipient
now resolves is written and destroyed; another one stays, with one more attempt
counted, until the ceiling is reached. -/
def retryPending (ceiling : Nat) (p : Peer) : Peer × List (Fingerprint × Frame) :=
  let written := p.pending.filterMap (fun s => (Lookup p s.accountKey).map (fun fp => (fp, s.frame)))
  let kept := (p.pending.filter
      (fun s => (Lookup p s.accountKey).isNone && decide (s.attemptCount + 1 < ceiling))).map
    (fun s => { s with attemptCount := s.attemptCount + 1 })
  ({ p with pending := kept }, written)

/-- Modelled from the spec: a frame written to a stream opened to a transport
identity (section 4.2) is read by the Inbound Dispatch of the hub that owns
this identity, and by no other hub. -/
def receive (verify : Fingerprint → List Nat → AccountKey → Bool) (capacity : Nat)
    (p : Peer) (written : Fingerprint × Frame) : Peer :=
  if written.1 = p.identity then Dispatch verify capacity p (.application written.2) else p

/-- Delivery of everything written in one step. -/
def receiveAll (verify : Fingerprint → List Nat → AccountKey → Bool) (capacity : Nat)
    (p : Peer) (written : List (Fingerprint × Frame)) : Peer :=
  written.foldl (receive verify capacity) p

/-- A verifier used to instantiate the model: the signature is the account key
followed by the fingerprint. -/
def sampleVerify (fp : Fingerprint) (sig : List Nat) (key : AccountKey) : Bool :=
  sig == key ++ fp

/-- A hub with the given identity and registry and nothing else. -/
def samplePeer (identity : Fingerprint) (registry : List (AccountKey × RegistrationRecord)) :
    Peer where
  identity := identity
  registry := registry
  handlerInstalled := false
  handled := []
  queue := []
  pending := []

end PeerModel

namespace TestHub

/-! # Properties -/

/-! ## The decode loop of `main` -/

theorem u32_of_lt {n : Nat} (h : n < 2 ^ 32) : u32 n = n := Nat.mod_eq_of_lt h

theorem slice_mid (pre mid post : List Nat) :
    slice (pre ++ mid ++ post) pre.length (pre.length + mid.length) = .ok mid := by
  unfold slice
  have h : pre.length ≤ pre.length + mid.length ∧
      pre.length + mid.length ≤ (pre ++ mid ++ post).length := by
    simp [List.length_append]
  rw [if_pos h]
  simp [List.append_assoc]

theorem Uint32_PutUint32 (v : Nat) (hv : v < 2 ^ 32) :
    LittleEndianUint32 (PutUint32 v) = .ok v := by
  simp only [PutUint32, LittleEndianUint32, Nat.shiftLeft_eq, Nat.shiftRight_eq_div_pow]
  congr 1
  have h0 : v % 256 < 2 ^ 8 := by omega
  have h1 : v % 256 + v / 2 ^ 8 % 256 * 2 ^ 8 < 2 ^ 16 := by omega
  have h2 : v % 256 + v / 2 ^ 8 % 256 * 2 ^ 8 + v / 2 ^ 16 % 256 * 2 ^ 16 < 2 ^ 24 := by omega
  rw [Nat.mul_comm _ (2 ^ 8), Nat.mul_comm _ (2 ^ 16), Nat.mul_comm _ (2 ^ 24)]
  rw [Nat.lor_comm (v % 256), ← Nat.mul_add_lt_is_or h0]
  rw [Nat.lor_comm _ (2 ^ 16 * _), ← Nat.mul_add_lt_is_or (by omega)]
  rw [Nat.lor_comm _ (2 ^ 24 * _), ← Nat.mul_add_lt_is_or (by omega)]
  omega

theorem length_PutUint32 (v : Nat) : (PutUint32 v).length = 4 := rfl

theorem decodeLoop_pack {σ : Type} (process : List Nat → σ → Except Err σ) :
    ∀ (ps : List (List Nat)) (pre post : List Nat) (s : σ),
      (pre ++ pack ps ++ post).length < 2 ^ 32 →
      decodeLoop process (pre ++ pack ps ++ post) ps.length pre.length s
        = ps.foldlM (fun s p => process p s) s := by
  intro ps
  induction ps with
  | nil => intro pre post s _; simp [decodeLoop, pure, Except.pure]
  | cons p ps ih =>
    intro pre post s hlt
    have hbuf : pre ++ pack (p :: ps) ++ post
        = (pre ++ PutUint32 p.length ++ p) ++ pack ps ++ post := by
      simp [pack, List.append_assoc]
    have hlen : (pre ++ pack (p :: ps) ++ post).length
        = pre.length + 4 + p.length + (pack ps).length + post.length := by
      simp [pack, List.length_append, length_PutUint32]; omega
    rw [hlen] at hlt
    have hp : p.length < 2 ^ 32 := by omega
    have h1 : slice (pre ++ pack (p :: ps) ++ post) pre.length (u32 (pre.length + 4))
        = .ok (PutUint32 p.length) := by
      rw [u32_of_lt (by omega)]
      have := slice_mid pre (PutUint32 p.length) (p ++ pack ps ++ post)
      simpa [pack, List.append_assoc, length_PutUint32] using this
    have h2 : slice (pre ++ pack (p :: ps) ++ post) (u32 (pre.length + 4))
        (u32 (u32 (pre.length + 4) + p.length)) = .ok p := by
      rw [u32_of_lt (show pre.length + 4 < 2 ^ 32 by omega), u32_of_lt (by omega)]
      have := slice_mid (pre ++ PutUint32 p.length) p (pack ps ++ post)
      simpa [pack, List.append_assoc, length_PutUint32, List.length_append] using this
    have h3 : u32 (u32 (pre.length + 4) + p.length)
        = (pre ++ PutUint32 p.length ++ p).length := by
      rw [u32_of_lt (show pre.length + 4 < 2 ^ 32 by omega), u32_of_lt (by omega)]
      simp [List.length_append, length_PutUint32]; omega
    rw [h3] at h2
    have hrec := fun s1 => ih (pre ++ PutUint32 p.length ++ p) post s1 (by
      rw [← hbuf, hlen]; exact hlt)
    simp only [List.length_cons, decodeLoop, h1, Uint32_PutUint32 p.length hp, h2, h3,
      List.foldlM_cons, bind, Except.bind]
    cases hproc : process p s with
    | error e => rfl
    | ok s1 =>
      simp only []
      rw [hbuf]
      exact hrec s1

theorem foldlM_record (ps : List (List Nat)) :
    ∀ log : List (List Nat), ps.foldlM (fun s p => record p s) log = .ok (log ++ ps) := by
  induction ps with
  | nil => intro log; simp [pure, Except.pure]
  | cons p ps ih =>
    intro log
    rw [List.foldlM_cons]
    show List.foldlM (fun s p => record p s) (log ++ [p]) ps = _
    rw [ih]
    simp

/-- C1. On a `bufSize`-byte buffer that starts with the packing of the payloads
`ps`, the decode loop of `main`, run with `msgCount = ps.length`, never slices
outside the buffer and hands exactly the payloads of `ps`, in order and byte for
byte, to its callee: with the recording callee the result is `ps`, and with any
callee the loop is the left-to-right iteration of the callee over `ps`. -/
theorem decodeMessages_hands_payloads (ps : List (List Nat)) (buffer : List Nat)
    (hlen : buffer.length = bufSize) (hfit : pack ps <+: buffer) :
    decodeMessages record buffer (ps.length : Int) [] = .ok ps ∧
    ∀ (σ : Type) (process : List Nat → σ → Except Err σ) (s : σ),
      decodeMessages process buffer (ps.length : Int) s
        = ps.foldlM (fun s p => process p s) s := by
  obtain ⟨post, rfl⟩ := hfit
  have hlt : (([] : List Nat) ++ pack ps ++ post).length < 2 ^ 32 := by
    simp only [List.nil_append, hlen, bufSize]; norm_num
  have key := fun (σ : Type) (process : List Nat → σ → Except Err σ) (s : σ) =>
    decodeLoop_pack process ps [] post s hlt
  simp only [List.nil_append, List.length_nil] at key
  refine ⟨?_, ?_⟩
  · simp only [decodeMessages, Int.toNat_ofNat, key, foldlM_record, List.nil_append]
  · intro σ process s
    simp only [decodeMessages, Int.toNat_ofNat, key]

theorem decodeMessages_hands_payloads_witness :
    decodeMessages record (pack [[112, 105, 110, 103], [], [7]] ++ List.replicate 9983 0)
        (3 : Nat) [] = .ok [[112, 105, 110, 103], [], [7]] :=
  (decodeMessages_hands_payloads [[112, 105, 110, 103], [], [7]]
    (pack [[112, 105, 110, 103], [], [7]] ++ List.replicate 9983 0)
    (by rw [List.length_append, List.length_replicate]; rfl) (List.prefix_append _ _)).1

/-! ## `getPeersCount` -/

theorem splitComma_ne_nil (cs : List Char) : splitComma cs ≠ [] := by
  induction cs with
  | nil => simp [splitComma]
  | cons c cs ih =>
    unfold splitComma
    split
    · simp
    · split <;> simp

theorem splitComma_append_comma (a rest : List Char) (ha : ',' ∉ a) :
    splitComma (a ++ ',' :: rest) = a :: splitComma rest := by
  induction a with
  | nil => simp [splitComma]
  | cons c cs ih =>
    have hc : c ≠ ',' := fun h => ha (by simp [h])
    have hcs : ',' ∉ cs := fun h => ha (by simp [h])
    have ih2 := ih hcs
    simp only [List.cons_append, splitComma, if_neg hc]
    rw [show cs.append (',' :: rest) = cs ++ ',' :: rest from rfl, ih2]

theorem splitComma_comma_free (a : List Char) (ha : ',' ∉ a) : splitComma a = [a] := by
  induction a with
  | nil => simp [splitComma]
  | cons c cs ih =>
    have hc : c ≠ ',' := fun h => ha (by simp [h])
    have hcs : ',' ∉ cs := fun h => ha (by simp [h])
    simp only [splitComma, if_neg hc, ih hcs]

theorem splitComma_joinComma (a : List Char) (as : List (List Char))
    (hfree : ∀ x ∈ a :: as, ',' ∉ x) : splitComma (joinComma (a :: as)) = a :: as := by
  induction as generalizing a with
  | nil => simpa [joinComma] using splitComma_comma_free a (hfree a (by simp))
  | cons b bs ih =>
    have hb : ∀ x ∈ b :: bs, ',' ∉ x := fun x hx => hfree x (List.mem_cons_of_mem _ hx)
    rw [joinComma, splitComma_append_comma _ _ (hfree a (by simp)), ih b hb]

/-- On a bootstrap list of `n ≥ 1` comma-free addresses (fewer than `2 ^ 32` of
them) joined with commas, `getPeersCount` returns `n`. -/
theorem getPeersCount_joinComma (a : List Char) (as : List (List Char))
    (hfree : ∀ x ∈ a :: as, ',' ∉ x) (hlen : (a :: as).length < 2 ^ 32) :
    getPeersCount (String.mk (joinComma (a :: as))) = (a :: as).length := by
  unfold getPeersCount
  show u32 (splitComma (joinComma (a :: as))).length = _
  rw [splitComma_joinComma a as hfree]
  exact Nat.mod_eq_of_lt hlen

/-- C5. For the empty bootstrap list, whose comma-joined string is `""`,
`getPeersCount` returns `1` and not `0`: `strings.Split("", ",")` is the
one-element slice holding the empty string. The protocol of `main` is then
created with one participant. -/
theorem getPeersCount_empty :
    joinComma [] = "".toList ∧ getPeersCount "" = 1 ∧
    ∀ idx, (startProtocol idx "").peerNumber = 1 :=
  ⟨rfl, by decide, fun _ => rfl⟩

/-! ## Rows of the `echos` map -/

theorem lookup_of_mem_keys {β : Type} (l : List (Nat × β)) (i : Nat)
    (h : i ∈ l.map Prod.fst) : ∃ row, l.lookup i = some row ∧ (i, row) ∈ l := by
  induction l with
  | nil => simp at h
  | cons e t ih =>
    obtain ⟨a, r⟩ := e
    by_cases hia : i = a
    · subst hia
      exact ⟨r, by simp [List.lookup], by simp⟩
    · have hmem : i ∈ t.map Prod.fst := by
        simp only [List.map_cons, List.mem_cons] at h
        rcases h with h | h
        · exact absurd h hia
        · exact h
      obtain ⟨row, h1, h2⟩ := ih hmem
      refine ⟨row, ?_, List.mem_cons_of_mem _ h2⟩
      have : (i == a) = false := by simpa using hia
      simp [List.lookup, this, h1]

theorem lookup_of_mem_nodup {β : Type} (l : List (Nat × β)) (i : Nat) (row : β)
    (hnd : (l.map Prod.fst).Nodup) (h : (i, row) ∈ l) : l.lookup i = some row := by
  induction l with
  | nil => simp at h
  | cons e t ih =>
    obtain ⟨a, r⟩ := e
    simp only [List.map_cons, List.nodup_cons] at hnd
    simp only [List.mem_cons, Prod.mk.injEq] at h
    rcases h with ⟨h1, h2⟩ | h
    · subst h1; subst h2; simp [List.lookup]
    · have hne : i ≠ a := by
        intro hia
        apply hnd.1
        rw [← hia]
        exact List.mem_map_of_mem Prod.fst h
      have : (i == a) = false := by simpa using hne
      simp [List.lookup, this, ih hnd.2 h]

theorem setEcho_cons (a : Nat) (r : List Bool) (t : List (Nat × List Bool)) (frm val : Nat) :
    setEcho ((a, r) :: t) frm val
      = (if a = frm then (a, r.set val true) else (a, r)) :: setEcho t frm val := rfl

theorem lookup_setEcho (l : List (Nat × List Bool)) (frm val k : Nat) :
    (setEcho l frm val).lookup k
      = (l.lookup k).map (fun row => if k = frm then row.set val true else row) := by
  induction l with
  | nil => simp [setEcho]
  | cons e t ih =>
    obtain ⟨a, r⟩ := e
    rw [setEcho_cons]
    by_cases haf : a = frm
    · rw [if_pos haf, List.lookup_cons, List.lookup_cons, ih]
      by_cases hka : k = a
      · have hb : (k == a) = true := by simpa using hka
        simp [hb, hka, haf]
      · have hb : (k == a) = false := by simpa using hka
        simp [hb]
    · rw [if_neg haf, List.lookup_cons, List.lookup_cons, ih]
      by_cases hka : k = a
      · have hb : (k == a) = true := by simpa using hka
        have hkf : ¬ k = frm := by rw [hka]; exact haf
        simp [hb, hkf]
      · have hb : (k == a) = false := by simpa using hka
        simp [hb]

theorem keys_setEcho (l : List (Nat × List Bool)) (frm val : Nat) :
    (setEcho l frm val).map Prod.fst = l.map Prod.fst := by
  induction l with
  | nil => rfl
  | cons e t ih =>
    have ih2 : List.map Prod.fst (List.map
        (fun e => if e.1 = frm then (e.1, e.2.set val true) else e) t)
        = t.map Prod.fst := ih
    by_cases h : e.1 = frm <;> simp [setEcho, h, ih2]

theorem rows_setEcho (l : List (Nat × List Bool)) (frm val n : Nat)
    (h : ∀ e ∈ l, e.2.length = n) : ∀ e ∈ setEcho l frm val, e.2.length = n := by
  intro e he
  simp only [setEcho, List.mem_map] at he
  obtain ⟨e0, he0, rfl⟩ := he
  by_cases hf : e0.1 = frm
  · simp [hf, h e0 he0]
  · simp [hf, h e0 he0]

/-! ## Well-formed nodes -/

theorem WF_NewRBCEmulation (idx n : Nat) : WF (NewRBCEmulation idx n) := by
  refine ⟨by simp [NewRBCEmulation], by simp [NewRBCEmulation], ?_, ?_⟩
  · simp [NewRBCEmulation, List.map_map, Function.comp_def]
  · intro e he
    simp only [NewRBCEmulation, List.mem_map] at he
    obtain ⟨i, _, rfl⟩ := he
    simp [NewRBCEmulation]

theorem WF.row {p : RBCEmulation} (hp : WF p) {i : Nat} (hi : i < p.peerNumber) :
    ∃ row, p.echos.lookup i = some row ∧ row.length = p.peerNumber := by
  obtain ⟨row, h1, h2⟩ := lookup_of_mem_keys p.echos i (by rw [hp.2.2.1]; simpa using hi)
  exact ⟨row, h1, hp.2.2.2 _ h2⟩

theorem allEchos_iff (echos : List (Nat × List Bool)) :
    allEchos echos = true ↔ ∀ e ∈ echos, ∀ v ∈ e.2, v = true := by
  simp [allEchos, List.all_eq_true]

theorem WF.allEchos_iff_flags {p : RBCEmulation} (hp : WF p) :
    allEchos p.echos = true ↔
      ∀ a, a < p.peerNumber → ∀ b, b < p.peerNumber → echoFlag p a b = true := by
  rw [allEchos_iff]
  constructor
  · intro h a ha b hb
    obtain ⟨row, h1, h2⟩ := lookup_of_mem_keys p.echos a (by rw [hp.2.2.1]; simpa using ha)
    have hlen := hp.2.2.2 _ h2
    simp only [echoFlag, h1, Option.getD_some]
    have hb2 : b < row.length := by simpa [hlen] using hb
    rw [List.getD_eq_getElem _ _ hb2]
    exact h _ h2 _ (List.getElem_mem _)
  · intro h e he v hv
    obtain ⟨a, row⟩ := e
    have ha : a < p.peerNumber := by
      have : a ∈ p.echos.map Prod.fst := List.mem_map_of_mem Prod.fst he
      rw [hp.2.2.1] at this
      simpa using this
    have hnd : (p.echos.map Prod.fst).Nodup := by rw [hp.2.2.1]; exact List.nodup_range _
    have hl := lookup_of_mem_nodup p.echos a row hnd he
    obtain ⟨b, hb, rfl⟩ := List.getElem_of_mem hv
    have hlen : row.length = p.peerNumber := hp.2.2.2 _ he
    have := h a ha b (by rw [← hlen]; exact hb)
    simp only [echoFlag, hl, Option.getD_some] at this
    rwa [List.getD_eq_getElem _ _ hb] at this

/-! ## Unfolding `Process` and `BroadcastMessage` -/

theorem marshal_ne_nil (data : JsonMap) : marshal data ≠ [] := by
  simp [marshal]

theorem BroadcastMessage_eq (E : Ext) (fuel : Nat) (msg : List Nat) (h : Hub)
    (hz : E.ZeroPub ≠ []) (hm : msg ≠ []) :
    BroadcastMessage E fuel msg h = Process E fuel msg (h.sending E msg) := by
  simp [BroadcastMessage, BroadcastMessageWith, hz, hm, Hub.sending]

theorem BroadcastMessage_panic (E : Ext) (fuel : Nat) (msg : List Nat) (h : Hub)
    (hz : E.ZeroPub = [] ∨ msg = []) :
    BroadcastMessage E fuel msg h = .error .panic := by
  simp [BroadcastMessage, BroadcastMessageWith, hz]

theorem Process_zero (E : Ext) (msg : List Nat) (h : Hub) :
    Process E 0 msg h = .error .outOfFuel := rfl

theorem Process_val_eq (E : Ext) (fuel : Nat) (msg : List Nat) (h : Hub)
    (hty : msgType E msg = 0) :
    Process E (fuel + 1) msg h =
      if msgFrom E msg < h.node.vals.length then
        BroadcastMessage E fuel (marshal (echoMap h.node.idx (msgFrom E msg)))
          ((h.logged msg).withVal (msgFrom E msg))
      else .error .panic := by
  simp only [msgType] at hty
  simp only [Process, hty, if_true, msgFrom, BroadcastMessage, Hub.logged, Hub.withVal]

theorem Process_echo_eq (E : Ext) (fuel : Nat) (msg : List Nat) (h : Hub)
    (hty : msgType E msg = 1) :
    Process E (fuel + 1) msg h =
      match h.node.echos.lookup (msgFrom E msg) with
      | none => .error .panic
      | some row =>
        if msgVal E msg < row.length then
          if allEchos (setEcho h.node.echos (msgFrom E msg) (msgVal E msg)) then
            BroadcastMessage E fuel (marshal (readyMap h.node.idx))
              ((h.logged msg).withEcho (msgFrom E msg) (msgVal E msg))
          else .ok ((h.logged msg).withEcho (msgFrom E msg) (msgVal E msg))
        else .error .panic := by
  simp only [msgType] at hty
  simp only [Process, hty, msgFrom, msgVal, BroadcastMessage, Hub.logged, Hub.withEcho]
  simp

theorem Process_ready_eq (E : Ext) (fuel : Nat) (msg : List Nat) (h : Hub)
    (hty : msgType E msg = 2) :
    Process E (fuel + 1) msg h =
      if msgFrom E msg < h.node.readys.length then
        .ok ((h.logged msg).withReady (msgFrom E msg))
      else .error .panic := by
  simp only [msgType] at hty
  simp only [Process, hty, msgFrom, Hub.logged, Hub.withReady]
  simp

theorem Process_other_eq (E : Ext) (fuel : Nat) (msg : List Nat) (h : Hub)
    (h0 : msgType E msg ≠ 0) (h1 : msgType E msg ≠ 1) (h2 : msgType E msg ≠ 2) :
    Process E (fuel + 1) msg h = .ok (h.logged msg) := by
  simp only [msgType] at h0 h1 h2
  simp only [Process, h0, h1, h2, if_false, Hub.logged]

/-! ## An induction principle for `Process` -/

/-- A relation between hubs that is transitive and holds across every elementary
update `Process` and `BroadcastMessage` perform holds between the hub before
and the hub after every call of `Process` that returns. -/
theorem Process_rel (E : Ext) (R : Hub → Hub → Prop)
    (htrans : ∀ a b c, R a b → R b c → R a c)
    (hval : ∀ (h : Hub) msg, msgType E msg = 0 → msgFrom E msg < h.node.vals.length →
      R h ((h.logged msg).withVal (msgFrom E msg)))
    (hecho : ∀ (h : Hub) msg row, msgType E msg = 1 →
      h.node.echos.lookup (msgFrom E msg) = some row → msgVal E msg < row.length →
      R h ((h.logged msg).withEcho (msgFrom E msg) (msgVal E msg)))
    (hsend : ∀ (h : Hub) msg, msg ≠ [] → R h (h.sending E msg))
    (hready : ∀ (h : Hub) msg, msgType E msg = 2 → msgFrom E msg < h.node.readys.length →
      R h ((h.logged msg).withReady (msgFrom E msg)))
    (hother : ∀ (h : Hub) msg, msgType E msg ≠ 0 → msgType E msg ≠ 1 → msgType E msg ≠ 2 →
      R h (h.logged msg)) :
    ∀ fuel msg h h', Process E fuel msg h = .ok h' → R h h' := by
  intro fuel
  induction fuel with
  | zero => intro msg h h' hp; simp [Process_zero] at hp
  | succ fuel ih =>
    intro msg h h' hp
    have hbc : ∀ (m : List Nat) (g : Hub), BroadcastMessage E fuel m g = .ok h' → R g h' := by
      intro m g hb
      by_cases hz : E.ZeroPub = [] ∨ m = []
      · rw [BroadcastMessage_panic E fuel m g hz] at hb; cases hb
      · have hz1 : E.ZeroPub ≠ [] := fun c => hz (Or.inl c)
        have hm1 : m ≠ [] := fun c => hz (Or.inr c)
        rw [BroadcastMessage_eq E fuel m g hz1 hm1] at hb
        exact htrans _ _ _ (hsend g m hm1) (ih _ _ _ hb)
    by_cases h0 : msgType E msg = 0
    · rw [Process_val_eq E fuel msg h h0] at hp
      split at hp
      · rename_i hlt
        exact htrans _ _ _ (hval h msg h0 hlt) (hbc _ _ hp)
      · cases hp
    · by_cases h1 : msgType E msg = 1
      · rw [Process_echo_eq E fuel msg h h1] at hp
        split at hp
        · cases hp
        · rename_i row hrow
          split at hp
          · rename_i hlt
            split at hp
            · exact htrans _ _ _ (hecho h msg row h1 hrow hlt) (hbc _ _ hp)
            · cases hp
              exact hecho h msg row h1 hrow hlt
          · cases hp
      · by_cases h2 : msgType E msg = 2
        · rw [Process_ready_eq E fuel msg h h2] at hp
          split at hp
          · rename_i hlt
            cases hp
            exact hready h msg h2 hlt
          · cases hp
        · rw [Process_other_eq E fuel msg h h0 h1 h2] at hp
          cases hp
          exact hother h msg h0 h1 h2

/-! ## Flags are only ever set -/

theorem getD_set_self (l : List Bool) (j : Nat) (hj : j < l.length) :
    (l.set j true).getD j false = true := by
  simp [List.getD_eq_getElem?_getD, List.getElem?_set, hj]

theorem getD_set_of_getD (l : List Bool) (j k : Nat) (h : l.getD k false = true) :
    (l.set j true).getD k false = true := by
  simp only [List.getD_eq_getElem?_getD, List.getElem?_set] at h ⊢
  split
  · split
    · simp
    · rename_i hjk hlt
      subst hjk
      have : l[j]? = none := by simpa using hlt
      simp [this] at h
  · exact h

theorem echoFlag_withEcho_self (h : Hub) (i j : Nat) (row : List Bool)
    (hrow : h.node.echos.lookup i = some row) (hj : j < row.length) :
    echoFlag (h.withEcho i j).node i j = true := by
  simp only [echoFlag, Hub.withEcho, lookup_setEcho, hrow, Option.map_some', if_true,
    Option.getD_some]
  exact getD_set_self row j hj

theorem echoFlag_withEcho_of (h : Hub) (i j a b : Nat)
    (hf : echoFlag h.node a b = true) : echoFlag (h.withEcho i j).node a b = true := by
  simp only [echoFlag, Hub.withEcho, lookup_setEcho] at hf ⊢
  cases hl : h.node.echos.lookup a with
  | none => simp [hl] at hf
  | some row =>
    simp only [hl, Option.getD_some, Option.map_some'] at hf ⊢
    split
    · exact getD_set_of_getD row j b hf
    · exact hf

theorem Grows.refl (h : Hub) : Grows h h :=
  ⟨⟨fun _ x => x, fun _ _ x => x, fun _ x => x⟩, rfl, rfl, rfl, rfl,
    List.prefix_refl _, List.prefix_refl _⟩

theorem Grows.trans {a b c : Hub} (h1 : Grows a b) (h2 : Grows b c) : Grows a c := by
  obtain ⟨⟨f1, f2, f3⟩, l1, l2, i1, n1, s1, p1⟩ := h1
  obtain ⟨⟨g1, g2, g3⟩, m1, m2, j1, o1, t1, q1⟩ := h2
  exact ⟨⟨fun j x => g1 j (f1 j x), fun i j x => g2 i j (f2 i j x), fun i x => g3 i (f3 i x)⟩,
    m1.trans l1, m2.trans l2, j1.trans i1, o1.trans n1, s1.trans t1, p1.trans q1⟩

theorem Process_grows (E : Ext) (fuel : Nat) (msg : List Nat) (h h' : Hub)
    (hp : Process E fuel msg h = .ok h') : Grows h h' := by
  refine Process_rel E Grows (fun _ _ _ => Grows.trans) ?_ ?_ ?_ ?_ ?_ fuel msg h h' hp
  · intro h msg _ _
    refine ⟨⟨fun j x => ?_, fun _ _ x => x, fun _ x => x⟩, ?_, rfl, rfl, rfl,
      List.prefix_refl _, List.prefix_append _ _⟩
    · exact getD_set_of_getD _ _ _ x
    · simp [Hub.withVal, Hub.logged]
  · intro h msg row _ _ _
    refine ⟨⟨fun _ x => x, fun a b x => ?_, fun _ x => x⟩, rfl, rfl, rfl, rfl,
      List.prefix_refl _, List.prefix_append _ _⟩
    exact echoFlag_withEcho_of (h.logged msg) _ _ a b x
  · intro h msg _
    exact ⟨⟨fun _ x => x, fun _ _ x => x, fun _ x => x⟩, rfl, rfl, rfl, rfl,
      List.prefix_append _ _, List.prefix_refl _⟩
  · intro h msg _ _
    refine ⟨⟨fun _ x => x, fun _ _ x => x, fun i x => ?_⟩, rfl, ?_, rfl, rfl,
      List.prefix_refl _, List.prefix_append _ _⟩
    · exact getD_set_of_getD _ _ _ x
    · simp [Hub.withReady, Hub.logged]
  · intro h msg _ _ _
    exact ⟨⟨fun _ x => x, fun _ _ x => x, fun _ x => x⟩, rfl, rfl, rfl, rfl,
      List.prefix_refl _, List.prefix_append _ _⟩

/-! ## The shape of a node is kept -/

theorem Process_WF (E : Ext) (fuel : Nat) (msg : List Nat) (h h' : Hub)
    (hp : Process E fuel msg h = .ok h') (hwf : WF h.node) : WF h'.node := by
  refine Process_rel E (fun a b => WF a.node → WF b.node) (fun _ _ _ f g x => g (f x))
    ?_ ?_ ?_ ?_ ?_ fuel msg h h' hp hwf
  · intro h msg _ _ hw
    exact ⟨by simpa [Hub.withVal, Hub.logged] using hw.1, hw.2.1, hw.2.2.1, hw.2.2.2⟩
  · intro h msg row _ _ _ hw
    refine ⟨hw.1, hw.2.1, ?_, ?_⟩
    · exact (keys_setEcho _ _ _).trans hw.2.2.1
    · exact rows_setEcho _ _ _ _ hw.2.2.2
  · intro h msg _ hw
    exact hw
  · intro h msg _ _ hw
    exact ⟨hw.1, by simpa [Hub.withReady, Hub.logged] using hw.2.1, hw.2.2.1, hw.2.2.2⟩
  · intro h msg _ _ _ hw
    exact hw

/-! ## `IsReady` and the READY messages processed -/

theorem getD_set_iff (l : List Bool) (j k : Nat) :
    (l.set j true).getD k false = true ↔ (k = j ∧ j < l.length) ∨ l.getD k false = true := by
  constructor
  · intro h
    by_cases hkj : k = j
    · subst hkj
      by_cases hlt : k < l.length
      · exact Or.inl ⟨rfl, hlt⟩
      · right
        have : l.set k true = l := by
          apply List.ext_getElem?
          intro n
          rw [List.getElem?_set]
          split
          · rename_i hkn
            subst hkn
            simp only [Nat.not_lt.mp hlt, List.getElem?_eq_none, ite_self]
          · rfl
        rwa [this] at h
    · right
      simp only [List.getD_eq_getElem?_getD, List.getElem?_set] at h ⊢
      rw [if_neg (fun c => hkj c.symm)] at h
      exact h
  · rintro (⟨rfl, hlt⟩ | h)
    · exact getD_set_self l k hlt
    · exact getD_set_of_getD l j k h

theorem IsReady_iff (p : RBCEmulation) :
    IsReady p = true ↔ ∀ i, i < p.readys.length → readyFlag p i = true := by
  simp only [IsReady, List.all_eq_true, readyFlag]
  constructor
  · intro h i hi
    rw [List.getD_eq_getElem _ _ hi]
    exact h _ (List.getElem_mem _)
  · intro h v hv
    obtain ⟨i, hi, rfl⟩ := List.getElem_of_mem hv
    have := h i hi
    rwa [List.getD_eq_getElem _ _ hi] at this

theorem ReadyLog_logged (E : Ext) (h g : Hub) (msg : List Nat) (hty : msgType E msg ≠ 2)
    (hr : g.node.readys = h.node.readys) (hl : g.processed = h.processed ++ [msg])
    (hh : ReadyLog E h) : ReadyLog E g := by
  intro i
  have := hh i
  simp only [readyFlag, hr, hl, List.mem_append, List.mem_singleton] at this ⊢
  rw [this]
  constructor
  · rintro ⟨hi, m, hm, h1, h2⟩
    exact ⟨hi, m, Or.inl hm, h1, h2⟩
  · rintro ⟨hi, m, hm | hm, h1, h2⟩
    · exact ⟨hi, m, hm, h1, h2⟩
    · subst hm; exact absurd h1 hty

theorem Process_ReadyLog (E : Ext) (fuel : Nat) (msg : List Nat) (h h' : Hub)
    (hp : Process E fuel msg h = .ok h') (hh : ReadyLog E h) : ReadyLog E h' := by
  refine Process_rel E (fun a b => ReadyLog E a → ReadyLog E b) (fun _ _ _ f g x => g (f x))
    ?_ ?_ ?_ ?_ ?_ fuel msg h h' hp hh
  · intro h msg hty _ hw
    exact ReadyLog_logged E h _ msg (by omega) rfl rfl hw
  · intro h msg row hty _ _ hw
    exact ReadyLog_logged E h _ msg (by omega) rfl rfl hw
  · intro h msg _ hw
    exact hw
  · intro h msg hty hlt hw i
    have := hw i
    simp only [readyFlag, Hub.withReady, Hub.logged, List.mem_append, List.mem_singleton,
      List.length_set] at this ⊢
    rw [getD_set_iff, this]
    constructor
    · rintro (⟨rfl, hi⟩ | ⟨hi, m, hm, h1, h2⟩)
      · exact ⟨hi, msg, Or.inr rfl, hty, rfl⟩
      · exact ⟨hi, m, Or.inl hm, h1, h2⟩
    · rintro ⟨hi, m, hm | hm, h1, h2⟩
      · exact Or.inr ⟨hi, m, hm, h1, h2⟩
      · subst hm
        exact Or.inl ⟨h2.symm, hlt⟩
  · intro h msg _ _ h2 hw
    exact ReadyLog_logged E h _ msg h2 rfl rfl hw

theorem ReadyLog_newHub (E : Ext) (idx n : Nat) : ReadyLog E (newHub idx n) := by
  intro i
  simp only [readyFlag, newHub, NewRBCEmulation, List.getD_eq_getElem?_getD,
    List.getElem?_replicate, List.not_mem_nil, false_and, exists_false, and_false, iff_false]
  split <;> simp

/-! ## Closed forms of the three phases -/

theorem BroadcastMessage_ready (E : Ext) (f : Nat) (g : Hub) (hz : E.ZeroPub ≠ [])
    (hrb : msgType E (marshal (readyMap g.node.idx)) = 2 ∧
      msgFrom E (marshal (readyMap g.node.idx)) = g.node.idx)
    (hlt : g.node.idx < g.node.readys.length) :
    BroadcastMessage E (f + 1) (marshal (readyMap g.node.idx)) g =
      .ok (((g.sending E (marshal (readyMap g.node.idx))).logged
        (marshal (readyMap g.node.idx))).withReady g.node.idx) := by
  rw [BroadcastMessage_eq E _ _ _ hz (marshal_ne_nil _), Process_ready_eq E _ _ _ hrb.1,
    hrb.2]
  rw [if_pos (by simpa [Hub.sending] using hlt)]

theorem Process_echo_result (E : Ext) (f : Nat) (h : Hub) (msg : List Nat) (i j : Nat)
    (hwf : WF h.node) (hidx : h.node.idx < h.node.peerNumber) (hz : E.ZeroPub ≠ [])
    (hrb : msgType E (marshal (readyMap h.node.idx)) = 2 ∧
      msgFrom E (marshal (readyMap h.node.idx)) = h.node.idx)
    (hty : msgType E msg = 1) (hfrm : msgFrom E msg = i) (hval : msgVal E msg = j)
    (hi : i < h.node.peerNumber) (hj : j < h.node.peerNumber) :
    Process E (f + 2) msg h = .ok (afterEcho E h msg i j) := by
  obtain ⟨row, hrow, hlen⟩ := hwf.row hi
  rw [Process_echo_eq E _ _ _ hty, hfrm, hval, hrow]
  simp only [hlen, hj, if_true, afterEcho]
  split
  · exact BroadcastMessage_ready E f ((h.logged msg).withEcho i j) hz hrb
      (by simpa [Hub.withEcho, Hub.logged, hwf.2.1] using hidx)
  · rfl

theorem Process_val_result (E : Ext) (f : Nat) (h : Hub) (msg : List Nat) (j : Nat)
    (hwf : WF h.node) (hidx : h.node.idx < h.node.peerNumber) (hz : E.ZeroPub ≠ [])
    (hrb : ReadsBack E h.node.idx h.node.peerNumber)
    (hty : msgType E msg = 0) (hfrm : msgFrom E msg = j) (hj : j < h.node.peerNumber) :
    Process E (f + 3) msg h = .ok (afterVal E h msg j) := by
  rw [Process_val_eq E _ _ _ hty, hfrm, if_pos (by rw [hwf.1]; exact hj),
    BroadcastMessage_eq E _ _ _ hz (marshal_ne_nil _)]
  have hwf2 : WF (((h.logged msg).withVal j).sending E
      (marshal (echoMap h.node.idx j))).node :=
    ⟨by simpa [Hub.withVal, Hub.logged, Hub.sending] using hwf.1, hwf.2.1, hwf.2.2.1,
      hwf.2.2.2⟩
  obtain ⟨h1, h2, h3⟩ := hrb.1 j hj
  exact Process_echo_result E f _ _ h.node.idx j hwf2 hidx hz hrb.2 h1 h2 h3 hidx hj

theorem afterEcho_vals (E : Ext) (h : Hub) (msg : List Nat) (i j : Nat) :
    (afterEcho E h msg i j).node.vals = h.node.vals := by
  unfold afterEcho; split <;> rfl

theorem afterEcho_echos (E : Ext) (h : Hub) (msg : List Nat) (i j : Nat) :
    (afterEcho E h msg i j).node.echos = setEcho h.node.echos i j := by
  unfold afterEcho; split <;> rfl

theorem afterEcho_peerNumber (E : Ext) (h : Hub) (msg : List Nat) (i j : Nat) :
    (afterEcho E h msg i j).node.peerNumber = h.node.peerNumber := by
  unfold afterEcho; split <;> rfl

theorem afterEcho_of_all (E : Ext) (h : Hub) (msg : List Nat) (i j : Nat)
    (hall : allEchos (setEcho h.node.echos i j) = true) :
    (afterEcho E h msg i j).sent = h.sent ++ [broadcastCall E (marshal (readyMap h.node.idx))] ∧
    (afterEcho E h msg i j).processed = h.processed ++ [msg, marshal (readyMap h.node.idx)] ∧
    (afterEcho E h msg i j).node.readys = h.node.readys.set h.node.idx true := by
  unfold afterEcho
  rw [if_pos hall]
  simp [Hub.withReady, Hub.logged, Hub.sending, Hub.withEcho]

theorem afterEcho_of_not_all (E : Ext) (h : Hub) (msg : List Nat) (i j : Nat)
    (hall : ¬ allEchos (setEcho h.node.echos i j) = true) :
    (afterEcho E h msg i j).sent = h.sent ∧
    (afterEcho E h msg i j).processed = h.processed ++ [msg] ∧
    (afterEcho E h msg i j).node.readys = h.node.readys := by
  unfold afterEcho
  rw [if_neg hall]
  simp [Hub.logged, Hub.withEcho]

theorem echoFlag_setEcho_self (p q : RBCEmulation) (i j : Nat) (hp : WF p)
    (hi : i < p.peerNumber) (hj : j < p.peerNumber)
    (hq : q.echos = setEcho p.echos i j) : echoFlag q i j = true := by
  obtain ⟨row, hrow, hlen⟩ := hp.row hi
  simp only [echoFlag, hq, lookup_setEcho, hrow, Option.map_some', if_true, Option.getD_some]
  exact getD_set_self row j (by rw [hlen]; exact hj)

theorem allEchos_setEcho_iff (p q : RBCEmulation) (i j : Nat) (hp : WF p)
    (hq : q.echos = setEcho p.echos i j) (hn : q.peerNumber = p.peerNumber) :
    allEchos (setEcho p.echos i j) = true ↔
      ∀ a, a < p.peerNumber → ∀ b, b < p.peerNumber → echoFlag q a b = true := by
  have hwf : WF { q with vals := p.vals, readys := p.readys } :=
    ⟨by simpa [hn] using hp.1, by simpa [hn] using hp.2.1,
      by simpa [hq, hn, keys_setEcho] using hp.2.2.1,
      by simpa [hq, hn] using rows_setEcho _ _ _ _ hp.2.2.2⟩
  have := hwf.allEchos_iff_flags
  simpa [hq, hn, echoFlag] using this

/-! ## The theorems on `Process` -/

/-- C6. In every well-formed state with `idx < peerNumber`, processing a VAL
message `{type 0, from j}` with `j < peerNumber` returns, with `vals[j]` set, the
ECHO `{type 1, from idx, val j}` as the first message broadcast by the call, that
ECHO also delivered to the node itself right after the VAL, and therefore
`echos[idx][j]` set on return. The environment is assumed to have a non-empty
`ZeroPub` and a decoder that reads back the node's own messages. -/
theorem Process_val_sets_and_echoes (E : Ext) (h : Hub) (msg : List Nat) (j fuel : Nat)
    (hwf : WF h.node) (hidx : h.node.idx < h.node.peerNumber) (hz : E.ZeroPub ≠ [])
    (hrb : ReadsBack E h.node.idx h.node.peerNumber)
    (hty : msgType E msg = 0) (hfrm : msgFrom E msg = j) (hj : j < h.node.peerNumber)
    (hfuel : 3 ≤ fuel) :
    ∃ h', Process E fuel msg h = .ok h' ∧
      valFlag h'.node j = true ∧
      (∃ rest, h'.sent = h.sent ++ broadcastCall E (marshal (echoMap h.node.idx j)) :: rest) ∧
      (∃ rest, h'.processed = h.processed ++ msg :: marshal (echoMap h.node.idx j) :: rest) ∧
      echoFlag h'.node h.node.idx j = true := by
  obtain ⟨f, rfl⟩ : ∃ f, fuel = f + 3 := ⟨fuel - 3, by omega⟩
  refine ⟨_, Process_val_result E f h msg j hwf hidx hz hrb hty hfrm hj, ?_, ?_, ?_, ?_⟩
  · simp only [valFlag, afterVal, afterEcho_vals]
    exact getD_set_self _ _ (by
      show j < h.node.vals.length
      rw [hwf.1]; exact hj)
  · by_cases hall : allEchos (setEcho h.node.echos h.node.idx j) = true
    · refine ⟨[broadcastCall E (marshal (readyMap h.node.idx))], ?_⟩
      exact (afterEcho_of_all E (((h.logged msg).withVal j).sending E
        (marshal (echoMap h.node.idx j))) _ _ _ hall).1.trans (by
          simp [Hub.sending, Hub.withVal, Hub.logged])
    · refine ⟨[], ?_⟩
      exact (afterEcho_of_not_all E (((h.logged msg).withVal j).sending E
        (marshal (echoMap h.node.idx j))) _ _ _ hall).1
  · by_cases hall : allEchos (setEcho h.node.echos h.node.idx j) = true
    · refine ⟨[marshal (readyMap h.node.idx)], ?_⟩
      exact (afterEcho_of_all E (((h.logged msg).withVal j).sending E
        (marshal (echoMap h.node.idx j))) _ _ _ hall).2.1.trans (by
          simp [Hub.sending, Hub.withVal, Hub.logged])
    · refine ⟨[], ?_⟩
      exact (afterEcho_of_not_all E (((h.logged msg).withVal j).sending E
        (marshal (echoMap h.node.idx j))) _ _ _ hall).2.1.trans (by
          simp [Hub.sending, Hub.withVal, Hub.logged])
  · exact echoFlag_setEcho_self h.node _ _ _ hwf hidx hj (by
      simp only [afterVal, afterEcho_echos]; rfl)

theorem Process_val_sets_and_echoes_witness :
    ∃ h', Process sampleExt 3 (marshal (valMap 1)) (newHub 0 2) = .ok h' ∧
      valFlag h'.node 1 = true ∧
      (∃ rest, h'.sent = (newHub 0 2).sent ++
        broadcastCall sampleExt (marshal (echoMap (newHub 0 2).node.idx 1)) :: rest) ∧
      (∃ rest, h'.processed = (newHub 0 2).processed ++
        marshal (valMap 1) :: marshal (echoMap (newHub 0 2).node.idx 1) :: rest) ∧
      echoFlag h'.node (newHub 0 2).node.idx 1 = true :=
  Process_val_sets_and_echoes sampleExt (newHub 0 2) (marshal (valMap 1)) 1 3
    (by decide) (by decide) (by decide) (by decide) (by decide) (by decide) (by decide)
    (by decide)

/-- C7, as stated, fails. The node built by `NewRBCEmulation(1, 1)` has
`idx = 1 ≥ peerNumber = 1`; the ECHO `{type 1, from 0, val 0}` completes its
one-flag table, the READY is broadcast and delivered to the node itself, and
`p.readys[1]` is out of range: `Process` panics instead of returning with
`readys[idx]` set. -/
theorem Process_echo_counterexample :
    WF (newHub 1 1).node ∧ sampleExt.ZeroPub ≠ [] ∧ ReadsBack sampleExt 1 1 ∧
    msgType sampleExt (marshal (echoMap 0 0)) = 1 ∧
    msgFrom sampleExt (marshal (echoMap 0 0)) = 0 ∧
    msgVal sampleExt (marshal (echoMap 0 0)) = 0 ∧
    0 < (newHub 1 1).node.peerNumber ∧
    Process sampleExt 2 (marshal (echoMap 0 0)) (newHub 1 1) = .error .panic ∧
    ∀ fuel h', Process sampleExt fuel (marshal (echoMap 0 0)) (newHub 1 1) ≠ .ok h' := by
  refine ⟨by decide, by decide, by decide, by decide, by decide, by decide, by decide, rfl, ?_⟩
  intro fuel h'
  match fuel with
  | 0 => intro hc; cases hc
  | 1 => intro hc; cases hc
  | f + 2 =>
    have hty : msgType sampleExt (marshal (echoMap 0 0)) = 1 := by decide
    have hty2 : msgType sampleExt (marshal (readyMap 1)) = 2 := by decide
    have hfrm2 : msgFrom sampleExt (marshal (readyMap 1)) = 1 := by decide
    have hz : sampleExt.ZeroPub ≠ [] := by decide
    rw [Process_echo_eq sampleExt _ _ _ hty]
    have hl : (newHub 1 1).node.echos.lookup (msgFrom sampleExt (marshal (echoMap 0 0)))
        = some [false] := by decide
    rw [hl]
    have hv : msgVal sampleExt (marshal (echoMap 0 0)) < [false].length := by decide
    have hall : allEchos (setEcho (newHub 1 1).node.echos
        (msgFrom sampleExt (marshal (echoMap 0 0)))
        (msgVal sampleExt (marshal (echoMap 0 0)))) = true := by decide
    simp only [hv, hall, if_true]
    rw [BroadcastMessage_eq sampleExt _ _ _ hz (marshal_ne_nil _)]
    have e1 : (newHub 1 1).node.idx = 1 := rfl
    rw [e1, Process_ready_eq sampleExt _ _ _ hty2, hfrm2]
    intro hc
    have hlen : ¬ 1 < (Hub.sending sampleExt (((newHub 1 1).logged (marshal (echoMap 0 0))).withEcho
        (msgFrom sampleExt (marshal (echoMap 0 0)))
        (msgVal sampleExt (marshal (echoMap 0 0)))) (marshal (readyMap 1))).node.readys.length := by
      decide
    rw [if_neg hlen] at hc
    cases hc

/-- C7, amended with `idx < peerNumber`. In every well-formed state with
`idx < peerNumber`, processing an ECHO `{type 1, from i, val j}` with
`i, j < peerNumber` returns with `echos[i][j]` set. If after that update every
one of the `peerNumber × peerNumber` echo flags is set, the call broadcast exactly
one message, the READY `{type 2, from idx}`, and `readys[idx]` is set on return;
otherwise it sent nothing and `vals` and `readys` are unchanged. -/
theorem Process_echo_sets_and_readies (E : Ext) (h : Hub) (msg : List Nat) (i j fuel : Nat)
    (hwf : WF h.node) (hidx : h.node.idx < h.node.peerNumber) (hz : E.ZeroPub ≠ [])
    (hrb : ReadsBack E h.node.idx h.node.peerNumber)
    (hty : msgType E msg = 1) (hfrm : msgFrom E msg = i) (hval : msgVal E msg = j)
    (hi : i < h.node.peerNumber) (hj : j < h.node.peerNumber) (hfuel : 2 ≤ fuel) :
    ∃ h', Process E fuel msg h = .ok h' ∧
      echoFlag h'.node i j = true ∧
      ((∀ a, a < h.node.peerNumber → ∀ b, b < h.node.peerNumber →
          echoFlag h'.node a b = true) →
        h'.sent = h.sent ++ [broadcastCall E (marshal (readyMap h.node.idx))] ∧
        readyFlag h'.node h.node.idx = true ∧ h'.node.vals = h.node.vals) ∧
      (¬ (∀ a, a < h.node.peerNumber → ∀ b, b < h.node.peerNumber →
          echoFlag h'.node a b = true) →
        h'.sent = h.sent ∧ h'.node.vals = h.node.vals ∧ h'.node.readys = h.node.readys) := by
  obtain ⟨f, rfl⟩ : ∃ f, fuel = f + 2 := ⟨fuel - 2, by omega⟩
  have hiff := allEchos_setEcho_iff h.node (afterEcho E h msg i j).node i j hwf
    (afterEcho_echos E h msg i j) (afterEcho_peerNumber E h msg i j)
  refine ⟨_, Process_echo_result E f h msg i j hwf hidx hz hrb.2 hty hfrm hval hi hj,
    ?_, ?_, ?_⟩
  · exact echoFlag_setEcho_self h.node _ i j hwf hi hj (afterEcho_echos E h msg i j)
  · intro hall
    have hall2 := hiff.mpr hall
    obtain ⟨h1, _, h3⟩ := afterEcho_of_all E h msg i j hall2
    refine ⟨h1, ?_, afterEcho_vals E h msg i j⟩
    simp only [readyFlag, h3]
    exact getD_set_self _ _ (by rw [hwf.2.1]; exact hidx)
  · intro hall
    have hall2 : ¬ allEchos (setEcho h.node.echos i j) = true := fun c => hall (hiff.mp c)
    obtain ⟨h1, _, h3⟩ := afterEcho_of_not_all E h msg i j hall2
    exact ⟨h1, afterEcho_vals E h msg i j, h3⟩

theorem Process_echo_sets_and_readies_witness :
    ∃ h', Process sampleExt 2 (marshal (echoMap 1 0)) (newHub 0 2) = .ok h' ∧
      echoFlag h'.node 1 0 = true ∧
      ((∀ a, a < (newHub 0 2).node.peerNumber → ∀ b, b < (newHub 0 2).node.peerNumber →
          echoFlag h'.node a b = true) →
        h'.sent = (newHub 0 2).sent ++
          [broadcastCall sampleExt (marshal (readyMap (newHub 0 2).node.idx))] ∧
        readyFlag h'.node (newHub 0 2).node.idx = true ∧
        h'.node.vals = (newHub 0 2).node.vals) ∧
      (¬ (∀ a, a < (newHub 0 2).node.peerNumber → ∀ b, b < (newHub 0 2).node.peerNumber →
          echoFlag h'.node a b = true) →
        h'.sent = (newHub 0 2).sent ∧ h'.node.vals = (newHub 0 2).node.vals ∧
        h'.node.readys = (newHub 0 2).node.readys) :=
  Process_echo_sets_and_readies sampleExt (newHub 0 2) (marshal (echoMap 1 0)) 1 0 2
    (by decide) (by decide) (by decide) (by decide) (by decide) (by decide) (by decide)
    (by decide) (by decide) (by decide)

/-! ## `Process` returns -/

theorem afterEcho_processed_length (E : Ext) (h : Hub) (msg : List Nat) (i j : Nat) :
    (afterEcho E h msg i j).processed.length ≤ h.processed.length + 2 := by
  by_cases hall : allEchos (setEcho h.node.echos i j) = true
  · rw [(afterEcho_of_all E h msg i j hall).2.1]; simp
  · rw [(afterEcho_of_not_all E h msg i j hall).2.1]; simp

theorem Process_total (E : Ext) (h : Hub) (msg : List Nat) (f : Nat)
    (hwf : WF h.node) (hidx : h.node.idx < h.node.peerNumber) (hz : E.ZeroPub ≠ [])
    (hrb : ReadsBack E h.node.idx h.node.peerNumber)
    (hfrm : msgFrom E msg < h.node.peerNumber)
    (hval : msgType E msg = 1 → msgVal E msg < h.node.peerNumber) :
    ∃ h', Process E (f + 3) msg h = .ok h' ∧ Process E 3 msg h = .ok h' ∧
      h'.processed.length ≤ h.processed.length + 3 := by
  by_cases h0 : msgType E msg = 0
  · refine ⟨_, Process_val_result E f h msg _ hwf hidx hz hrb h0 rfl hfrm,
      Process_val_result E 0 h msg _ hwf hidx hz hrb h0 rfl hfrm, ?_⟩
    unfold afterVal
    refine (afterEcho_processed_length E _ _ _ _).trans ?_
    simp [Hub.sending, Hub.withVal, Hub.logged]
  · by_cases h1 : msgType E msg = 1
    · refine ⟨_, Process_echo_result E (f + 1) h msg _ _ hwf hidx hz hrb.2 h1 rfl rfl hfrm
        (hval h1), Process_echo_result E 1 h msg _ _ hwf hidx hz hrb.2 h1 rfl rfl hfrm
        (hval h1), ?_⟩
      exact (afterEcho_processed_length E _ _ _ _).trans (by omega)
    · by_cases h2 : msgType E msg = 2
      · have hlt : msgFrom E msg < h.node.readys.length := by rw [hwf.2.1]; exact hfrm
        refine ⟨(h.logged msg).withReady (msgFrom E msg), ?_, ?_, ?_⟩
        · rw [Process_ready_eq E _ _ _ h2, if_pos hlt]
        · rw [Process_ready_eq E _ _ _ h2, if_pos hlt]
        · simp [Hub.withReady, Hub.logged]
      · refine ⟨h.logged msg, Process_other_eq E _ _ _ h0 h1 h2,
          Process_other_eq E _ _ _ h0 h1 h2, ?_⟩
        simp [Hub.logged]

/-- C9. The node built by `NewRBCEmulation(idx, n)` is well formed, and from
every well-formed state with `idx < n` (the freshly built one in particular)
`Process` returns normally on every message whose `from` field is below `n` and,
for type 1, whose `val` field is below `n`: no index is out of range, no missing
row is indexed, every message `json.Marshal` hands to `BroadcastMessage` is
non-empty, and three levels of calls (VAL, ECHO, READY) always suffice, so that at
most three messages are handed to `Process` in all. The state returned is well
formed again. -/
theorem Process_returns_normally (E : Ext) (idx n : Nat) (msg : List Nat) (fuel : Nat)
    (hidx : idx < n) (hz : E.ZeroPub ≠ []) (hrb : ReadsBack E idx n)
    (hfrm : msgFrom E msg < n) (hval : msgType E msg = 1 → msgVal E msg < n)
    (hfuel : 3 ≤ fuel) :
    (∀ data, marshal data ≠ []) ∧
    WF (NewRBCEmulation idx n) ∧ (NewRBCEmulation idx n).idx = idx ∧
    (NewRBCEmulation idx n).peerNumber = n ∧
    ∀ h : Hub, WF h.node → h.node.idx = idx → h.node.peerNumber = n →
      ∃ h', Process E fuel msg h = .ok h' ∧ Process E 3 msg h = .ok h' ∧
        h'.processed.length ≤ h.processed.length + 3 ∧
        WF h'.node ∧ h'.node.idx = idx ∧ h'.node.peerNumber = n := by
  refine ⟨marshal_ne_nil, WF_NewRBCEmulation idx n, rfl, rfl, ?_⟩
  intro h hwf hi hn
  subst hi; subst hn
  obtain ⟨f, rfl⟩ : ∃ f, fuel = f + 3 := ⟨fuel - 3, by omega⟩
  obtain ⟨h', h1, h2, h3⟩ := Process_total E h msg f hwf hidx hz hrb hfrm hval
  have hg := Process_grows E _ _ _ _ h1
  exact ⟨h', h1, h2, h3, Process_WF E _ _ _ _ h1 hwf, hg.2.2.2.1, hg.2.2.2.2.1⟩

theorem Process_returns_normally_witness :
    ∃ h', Process sampleExt 3 (marshal (valMap 1)) (newHub 0 2) = .ok h' ∧
      h'.processed.length ≤ (newHub 0 2).processed.length + 3 ∧ WF h'.node :=
  have key := (Process_returns_normally sampleExt 0 2 (marshal (valMap 1)) 3
    (by decide) (by decide) (by decide) (by decide) (by decide) (by decide)).2.2.2.2
    (newHub 0 2) (by decide) rfl rfl
  key.elim fun h' hh => ⟨h', hh.1, hh.2.2.1, hh.2.2.2.1⟩

/-! ## `BroadcastMessage` -/

theorem cint_of_lt (n : Nat) (h : n < 2 ^ 31) : cint n = n := by
  unfold cint Int.bmod
  have h1 : ((n : Int) % (2 ^ 32 : Nat)) = n := by
    apply Int.emod_eq_of_lt
    · exact Int.ofNat_nonneg n
    · exact_mod_cast (by omega : n < 2 ^ 32)
  rw [h1]
  have h2 : (n : Int) < (((2 ^ 32 : Nat) : Int) + 1) / 2 := by
    have : (((2 ^ 32 : Nat) : Int) + 1) / 2 = (2 ^ 31 : Nat) := by norm_num
    rw [this]
    exact_mod_cast h
  rw [if_pos h2]

theorem Process_logs_first (E : Ext) (fuel : Nat) (msg : List Nat) (h h' : Hub)
    (hp : Process E fuel msg h = .ok h') :
    ∃ rest, h'.processed = h.processed ++ msg :: rest := by
  have hpre : ∀ g : Hub, g.processed = h.processed ++ [msg] → Grows g h' →
      ∃ rest, h'.processed = h.processed ++ msg :: rest := by
    intro g hg hgr
    obtain ⟨rest, hr⟩ := hgr.2.2.2.2.2.2
    exact ⟨rest, by rw [← hr, hg]; simp⟩
  have hbc : ∀ (f : Nat) (m : List Nat) (g : Hub), g.processed = h.processed ++ [msg] →
      BroadcastMessage E f m g = .ok h' → ∃ rest, h'.processed = h.processed ++ msg :: rest := by
    intro f m g hg hb
    by_cases hz : E.ZeroPub = [] ∨ m = []
    · rw [BroadcastMessage_panic E f m g hz] at hb; cases hb
    · rw [BroadcastMessage_eq E f m g (fun c => hz (Or.inl c)) (fun c => hz (Or.inr c))] at hb
      exact hpre (g.sending E m) hg (Process_grows E _ _ _ _ hb)
  match fuel with
  | 0 => cases hp
  | f + 1 =>
    by_cases h0 : msgType E msg = 0
    · rw [Process_val_eq E f msg h h0] at hp
      split at hp
      · exact hbc _ _ _ rfl hp
      · cases hp
    · by_cases h1 : msgType E msg = 1
      · rw [Process_echo_eq E f msg h h1] at hp
        split at hp
        · cases hp
        · split at hp
          · split at hp
            · exact hbc _ _ _ rfl hp
            · cases hp; exact ⟨[], rfl⟩
          · cases hp
      · by_cases h2 : msgType E msg = 2
        · rw [Process_ready_eq E f msg h h2] at hp
          split at hp
          · cases hp; exact ⟨[], rfl⟩
          · cases hp
        · rw [Process_other_eq E f msg h h0 h1 h2] at hp
          cases hp; exact ⟨[], rfl⟩

/-- C4. With `ZeroPub` non-empty, for every non-empty message `msg` and every
node, `BroadcastMessage(msg, node)` is: one call
`SendMessage(&ZeroPub[0], C.int(len(ZeroPub)), &msg[0], C.int(len(msg)))`, which
leaves the node untouched, followed by one call of the node's own `Process` on
`msg`. The two length arguments are the lengths themselves whenever these are
below `2 ^ 31`. When the call returns, that `SendMessage` is the first one it
added to the history and `msg` is the first message it handed to `Process`. -/
theorem BroadcastMessage_sends_then_delivers (E : Ext) (fuel : Nat) (msg : List Nat) (h : Hub)
    (hz : E.ZeroPub ≠ []) (hm : msg ≠ []) :
    BroadcastMessage E fuel msg h = Process E fuel msg (h.sending E msg) ∧
    (h.sending E msg).sent = h.sent ++
      [{ target := E.ZeroPub, targetLen := cint E.ZeroPub.length,
         payload := msg, payloadLen := cint msg.length }] ∧
    (h.sending E msg).node = h.node ∧ (h.sending E msg).processed = h.processed ∧
    (E.ZeroPub.length < 2 ^ 31 → cint E.ZeroPub.length = E.ZeroPub.length) ∧
    (msg.length < 2 ^ 31 → cint msg.length = msg.length) ∧
    ∀ h', BroadcastMessage E fuel msg h = .ok h' →
      (∃ rest, h'.sent = h.sent ++ broadcastCall E msg :: rest) ∧
      (∃ rest, h'.processed = h.processed ++ msg :: rest) := by
  refine ⟨BroadcastMessage_eq E fuel msg h hz hm, rfl, rfl, rfl, cint_of_lt _, cint_of_lt _, ?_⟩
  intro h' hb
  rw [BroadcastMessage_eq E fuel msg h hz hm] at hb
  refine ⟨?_, Process_logs_first E fuel msg (h.sending E msg) h' hb⟩
  obtain ⟨rest, hr⟩ := (Process_grows E _ _ _ _ hb).2.2.2.2.2.1
  exact ⟨rest, by rw [← hr]; simp [Hub.sending]⟩

theorem BroadcastMessage_sends_then_delivers_witness :
    BroadcastMessage sampleExt 3 [112, 105, 110, 103] (newHub 0 2)
      = Process sampleExt 3 [112, 105, 110, 103]
          ((newHub 0 2).sending sampleExt [112, 105, 110, 103]) :=
  (BroadcastMessage_sends_then_delivers sampleExt 3 [112, 105, 110, 103] (newHub 0 2)
    (by decide) (by decide)).1

/-! ## Messages that do not decode -/

theorem get_of_lookup_none (data : JsonMap) (key : String) (h : data.lookup key = none) :
    data.get key = 0 := by
  simp [JsonMap.get, h]

/-- C10. A message whose decoded map has neither a `"type"` nor a `"from"` key,
as when `json.Unmarshal` fails and leaves the map `nil`, is not discarded: on a
well-formed node with `peerNumber ≥ 1`, `Process` reads type 0 and sender 0, sets
`vals[0]` and calls `BroadcastMessage` with the ECHO `{type 1, from idx, val 0}`,
which is also what it does on every VAL message from participant 0. With
`idx < peerNumber` the call returns with `vals[0]` set and that ECHO as the first
message sent. -/
theorem Process_undecodable_as_val_zero (E : Ext) (h : Hub) (msg : List Nat) (fuel : Nat)
    (hwf : WF h.node) (hn : 1 ≤ h.node.peerNumber)
    (hnil : E.unmarshal msg = [] ∨
      ((E.unmarshal msg).lookup "type" = none ∧ (E.unmarshal msg).lookup "from" = none)) :
    msgType E msg = 0 ∧ msgFrom E msg = 0 ∧
    Process E (fuel + 1) msg h =
      BroadcastMessage E fuel (marshal (echoMap h.node.idx 0)) ((h.logged msg).withVal 0) ∧
    valFlag ((h.logged msg).withVal 0).node 0 = true ∧
    (∀ msg0, msgType E msg0 = 0 → msgFrom E msg0 = 0 →
      Process E (fuel + 1) msg0 h =
        BroadcastMessage E fuel (marshal (echoMap h.node.idx 0)) ((h.logged msg0).withVal 0)) ∧
    (h.node.idx < h.node.peerNumber → E.ZeroPub ≠ [] →
      ReadsBack E h.node.idx h.node.peerNumber → 2 ≤ fuel →
      ∃ h', Process E (fuel + 1) msg h = .ok h' ∧ valFlag h'.node 0 = true ∧
        ∃ rest, h'.sent = h.sent ++ broadcastCall E (marshal (echoMap h.node.idx 0)) :: rest) := by
  have hty : msgType E msg = 0 := by
    rcases hnil with h1 | ⟨h1, _⟩
    · simp [msgType, JsonMap.get, h1]
    · exact get_of_lookup_none _ _ h1
  have hfrm : msgFrom E msg = 0 := by
    rcases hnil with h1 | ⟨_, h1⟩
    · simp [msgFrom, JsonMap.get, h1]
    · exact get_of_lookup_none _ _ h1
  have hlen : 0 < h.node.vals.length := by rw [hwf.1]; exact hn
  have hstep : ∀ m, msgType E m = 0 → msgFrom E m = 0 →
      Process E (fuel + 1) m h =
        BroadcastMessage E fuel (marshal (echoMap h.node.idx 0)) ((h.logged m).withVal 0) := by
    intro m h1 h2
    rw [Process_val_eq E fuel m h h1, h2, if_pos hlen]
  refine ⟨hty, hfrm, hstep msg hty hfrm, ?_, hstep, ?_⟩
  · exact getD_set_self _ _ hlen
  · intro hidx hz hrb hfuel
    obtain ⟨f, rfl⟩ : ∃ f, fuel = f + 2 := ⟨fuel - 2, by omega⟩
    have hres := Process_val_result E f h msg 0 hwf hidx hz hrb hty hfrm hn
    have hgr := Process_grows E _ _ _ _ hres
    refine ⟨_, hres, ?_, ?_⟩
    · simp only [valFlag, afterVal, afterEcho_vals]
      exact getD_set_self _ _ hlen
    · rw [Process_val_eq E _ msg h hty, hfrm, if_pos hlen,
        BroadcastMessage_eq E _ _ _ hz (marshal_ne_nil _)] at hres
      obtain ⟨rest, hr⟩ := (Process_grows E _ _ _ _ hres).2.2.2.2.2.1
      exact ⟨rest, by rw [← hr]; simp [Hub.sending, Hub.withVal, Hub.logged]⟩

theorem Process_undecodable_as_val_zero_witness :
    ∃ h', Process sampleExt 3 [110, 111] (newHub 0 2) = .ok h' ∧ valFlag h'.node 0 = true ∧
      ∃ rest, h'.sent = (newHub 0 2).sent ++
        broadcastCall sampleExt (marshal (echoMap (newHub 0 2).node.idx 0)) :: rest :=
  (Process_undecodable_as_val_zero sampleExt (newHub 0 2) [110, 111] 2
    (by decide) (by decide) (Or.inl (by decide))).2.2.2.2.2
    (by decide) (by decide) (by decide) (by decide)

/-! ## Runs from a fresh node -/

theorem processAll_invariant (E : Ext) (fuel : Nat) (P : Hub → Prop)
    (hstep : ∀ m h h', Process E fuel m h = .ok h' → P h → P h') :
    ∀ (msgs : List (List Nat)) (h h' : Hub), processAll E fuel msgs h = .ok h' → P h → P h' := by
  intro msgs
  induction msgs with
  | nil =>
    intro h h' hp hP
    simp only [processAll, Except.ok.injEq] at hp
    exact hp ▸ hP
  | cons m rest ih =>
    intro h h' hp hP
    simp only [processAll] at hp
    cases h1 : Process E fuel m h with
    | error e => rw [h1] at hp; cases hp
    | ok g =>
      rw [h1] at hp
      exact ih g h' hp (hstep m h g h1 hP)

theorem processAll_total (E : Ext) (f : Nat) :
    ∀ (msgs : List (List Nat)) (h : Hub), WF h.node → h.node.idx < h.node.peerNumber →
      E.ZeroPub ≠ [] → ReadsBack E h.node.idx h.node.peerNumber →
      (∀ m ∈ msgs, msgFrom E m < h.node.peerNumber ∧ msgVal E m < h.node.peerNumber) →
      ∃ h', processAll E (f + 3) msgs h = .ok h' := by
  intro msgs
  induction msgs with
  | nil => intro h _ _ _ _ _; exact ⟨h, rfl⟩
  | cons m rest ih =>
    intro h hwf hidx hz hrb hm
    have hm0 := hm m (List.mem_cons_self _ _)
    obtain ⟨g, hg, _, _⟩ := Process_total E h m f hwf hidx hz hrb hm0.1 (fun _ => hm0.2)
    have hgr := Process_grows E _ _ _ _ hg
    have hi : g.node.idx = h.node.idx := hgr.2.2.2.1
    have hn : g.node.peerNumber = h.node.peerNumber := hgr.2.2.2.2.1
    obtain ⟨h', hh⟩ := ih g (Process_WF E _ _ _ _ hg hwf) (by rw [hi, hn]; exact hidx) hz
      (by rw [hi, hn]; exact hrb)
      (fun x hx => by rw [hn]; exact hm x (List.mem_cons_of_mem _ hx))
    exact ⟨h', by simp only [processAll, hg, hh]⟩

theorem IsReady_of_grows (h h' : Hub) (hg : Grows h h') (hr : IsReady h.node = true) :
    IsReady h'.node = true := by
  rw [IsReady_iff] at hr ⊢
  intro i hi
  exact hg.1.2.2 i (hr i (by rw [← hg.2.2.1]; exact hi))

theorem Process_origin (E : Ext) :
    ∀ (fuel : Nat) (msg : List Nat) (h h' : Hub), Process E fuel msg h = .ok h' →
      ∀ m ∈ h'.processed, m ∈ h.processed ∨ m = msg ∨ ∃ c ∈ h'.sent, c.payload = m := by
  intro fuel
  induction fuel with
  | zero => intro msg h h' hp; cases hp
  | succ f ih =>
    intro msg h h' hp
    have hdone : ∀ g : Hub, g.processed = h.processed ++ [msg] → h' = g →
        ∀ m ∈ h'.processed, m ∈ h.processed ∨ m = msg ∨ ∃ c ∈ h'.sent, c.payload = m := by
      intro g hg he m hm
      rw [he, hg, List.mem_append, List.mem_singleton] at hm
      rcases hm with hm | hm
      · exact Or.inl hm
      · exact Or.inr (Or.inl hm)
    have hbc : ∀ (m1 : List Nat) (g : Hub), g.processed = h.processed ++ [msg] →
        BroadcastMessage E f m1 g = .ok h' →
        ∀ m ∈ h'.processed, m ∈ h.processed ∨ m = msg ∨ ∃ c ∈ h'.sent, c.payload = m := by
      intro m1 g hg hb m hm
      by_cases hz : E.ZeroPub = [] ∨ m1 = []
      · rw [BroadcastMessage_panic E f m1 g hz] at hb; cases hb
      · rw [BroadcastMessage_eq E f m1 g (fun c => hz (Or.inl c)) (fun c => hz (Or.inr c))] at hb
        have hsent : broadcastCall E m1 ∈ h'.sent := by
          obtain ⟨rest, hr⟩ := (Process_grows E _ _ _ _ hb).2.2.2.2.2.1
          rw [← hr]
          simp [Hub.sending]
        rcases ih m1 (g.sending E m1) h' hb m hm with h1 | h1 | h1
        · have h2 : m ∈ h.processed ++ [msg] := by rw [← hg]; exact h1
          rw [List.mem_append, List.mem_singleton] at h2
          rcases h2 with h2 | h2
          · exact Or.inl h2
          · exact Or.inr (Or.inl h2)
        · exact Or.inr (Or.inr ⟨broadcastCall E m1, hsent, by rw [h1]; rfl⟩)
        · exact Or.inr (Or.inr h1)
    by_cases h0 : msgType E msg = 0
    · rw [Process_val_eq E f msg h h0] at hp
      split at hp
      · exact hbc _ _ rfl hp
      · cases hp
    · by_cases h1 : msgType E msg = 1
      · rw [Process_echo_eq E f msg h h1] at hp
        split at hp
        · cases hp
        · split at hp
          · split at hp
            · exact hbc _ _ rfl hp
            · cases hp; exact hdone _ rfl rfl
          · cases hp
      · by_cases h2 : msgType E msg = 2
        · rw [Process_ready_eq E f msg h h2] at hp
          split at hp
          · cases hp; exact hdone _ rfl rfl
          · cases hp
        · rw [Process_other_eq E f msg h h0 h1 h2] at hp
          cases hp; exact hdone _ rfl rfl

theorem processAll_processed (E : Ext) (fuel : Nat) :
    ∀ (msgs : List (List Nat)) (h h' : Hub), processAll E fuel msgs h = .ok h' →
      Grows h h' ∧ (∀ m ∈ msgs, m ∈ h'.processed) ∧
      ∀ m ∈ h'.processed, m ∈ h.processed ∨ m ∈ msgs ∨ ∃ c ∈ h'.sent, c.payload = m := by
  intro msgs
  induction msgs with
  | nil =>
    intro h h' hp
    simp only [processAll, Except.ok.injEq] at hp
    subst hp
    exact ⟨Grows.refl h, ⟨fun m hm => absurd hm (List.not_mem_nil m), fun m hm => Or.inl hm⟩⟩
  | cons m0 rest ih =>
    intro h h' hp
    simp only [processAll] at hp
    cases h1 : Process E fuel m0 h with
    | error e => rw [h1] at hp; cases hp
    | ok g =>
      rw [h1] at hp
      obtain ⟨hg2, hin, hout⟩ := ih g h' hp
      have hg1 := Process_grows E _ _ _ _ h1
      refine ⟨hg1.trans hg2, ?_, ?_⟩
      · intro m hm
        rcases List.mem_cons.mp hm with hm | hm
        · obtain ⟨r, hr⟩ := Process_logs_first E _ _ _ _ h1
          apply hg2.2.2.2.2.2.2.subset
          rw [hr, hm]
          simp
        · exact hin m hm
      · intro m hm
        rcases hout m hm with h2 | h2 | h2
        · rcases Process_origin E _ _ _ _ h1 m h2 with h3 | h3 | ⟨c, hc, hcp⟩
          · exact Or.inl h3
          · exact Or.inr (Or.inl (by rw [h3]; exact List.mem_cons_self _ _))
          · exact Or.inr (Or.inr ⟨c, hg2.2.2.2.2.2.1.subset hc, hcp⟩)
        · exact Or.inr (Or.inl (List.mem_cons_of_mem _ h2))
        · exact Or.inr (Or.inr h2)

/-- C8. Start from `NewRBCEmulation(idx, n)` with an empty history and hand any
finite sequence `msgs` of messages to `Process`. Whenever the run returns,
`IsReady()` is true exactly when, for every `i < n`, a READY message (type 2) with
`from = i` is among the messages handed to `Process`; these messages are all the
messages of `msgs` (received) together with messages this node broadcast itself
(self-delivered) and nothing else; in particular READY messages from every
`i < n` in `msgs` make `IsReady()` true. No returning `Process` step clears a flag
of `vals`, `echos` or `readys`, so `IsReady()` stays true once it is true. With
`idx < n` and all `from` and `val` fields below `n`, the run does return. -/
theorem IsReady_iff_all_readys_processed (E : Ext) (idx n fuel : Nat)
    (msgs : List (List Nat)) :
    (∀ h', processAll E fuel msgs (newHub idx n) = .ok h' →
      (IsReady h'.node = true ↔
        ∀ i, i < n → ∃ m ∈ h'.processed, msgType E m = 2 ∧ msgFrom E m = i) ∧
      (∀ m ∈ msgs, m ∈ h'.processed) ∧
      (∀ m ∈ h'.processed, m ∈ msgs ∨ ∃ c ∈ h'.sent, c.payload = m) ∧
      ((∀ i, i < n → ∃ m ∈ msgs, msgType E m = 2 ∧ msgFrom E m = i) →
        IsReady h'.node = true) ∧
      (IsReady h'.node = true → ∀ i, i < n →
        (∃ m ∈ msgs, msgType E m = 2 ∧ msgFrom E m = i) ∨
        ∃ c ∈ h'.sent, msgType E c.payload = 2 ∧ msgFrom E c.payload = i)) ∧
    (∀ (h h' : Hub) (m : List Nat), Process E fuel m h = .ok h' →
      FlagsKept h.node h'.node ∧ (IsReady h.node = true → IsReady h'.node = true)) ∧
    (idx < n → E.ZeroPub ≠ [] → ReadsBack E idx n → 3 ≤ fuel →
      (∀ m ∈ msgs, msgFrom E m < n ∧ msgVal E m < n) →
      ∃ h', processAll E fuel msgs (newHub idx n) = .ok h') := by
  refine ⟨?_, ?_, ?_⟩
  · intro h' hp
    have hlog : ReadyLog E h' :=
      processAll_invariant E fuel (ReadyLog E)
        (fun m a b hab ha => Process_ReadyLog E fuel m a b hab ha) msgs _ h' hp
        (ReadyLog_newHub E idx n)
    have hlen : h'.node.readys.length = n :=
      processAll_invariant E fuel (fun a => a.node.readys.length = n)
        (fun m a b hab ha => (Process_grows E fuel m a b hab).2.2.1.trans ha) msgs _ h' hp
        (by simp [newHub, NewRBCEmulation])
    obtain ⟨_, hin, hout⟩ := processAll_processed E fuel msgs _ h' hp
    have hout2 : ∀ m ∈ h'.processed, m ∈ msgs ∨ ∃ c ∈ h'.sent, c.payload = m := by
      intro m hm
      rcases hout m hm with h1 | h1 | h1
      · cases h1
      · exact Or.inl h1
      · exact Or.inr h1
    have hiff : IsReady h'.node = true ↔
        ∀ i, i < n → ∃ m ∈ h'.processed, msgType E m = 2 ∧ msgFrom E m = i := by
      rw [IsReady_iff, hlen]
      constructor
      · intro hall i hi
        exact ((hlog i).mp (hall i hi)).2
      · intro hall i hi
        exact (hlog i).mpr ⟨by rw [hlen]; exact hi, hall i hi⟩
    refine ⟨hiff, hin, hout2, ?_, ?_⟩
    · intro hall
      refine hiff.mpr (fun i hi => ?_)
      obtain ⟨m, hm, h1, h2⟩ := hall i hi
      exact ⟨m, hin m hm, h1, h2⟩
    · intro hr i hi
      obtain ⟨m, hm, h1, h2⟩ := hiff.mp hr i hi
      rcases hout2 m hm with h3 | ⟨c, hc, hcp⟩
      · exact Or.inl ⟨m, h3, h1, h2⟩
      · exact Or.inr ⟨c, hc, by rw [hcp]; exact ⟨h1, h2⟩⟩
  · intro h h' m hp
    have hg := Process_grows E fuel m h h' hp
    exact ⟨hg.1, IsReady_of_grows h h' hg⟩
  · intro hidx hz hrb hfuel hm
    obtain ⟨f, rfl⟩ : ∃ f, fuel = f + 3 := ⟨fuel - 3, by omega⟩
    exact processAll_total E f msgs (newHub idx n) (WF_NewRBCEmulation idx n) hidx hz hrb hm

theorem IsReady_iff_all_readys_processed_witness :
    ∃ h', processAll sampleExt 3 [marshal (readyMap 1), marshal (echoMap 1 1),
        marshal (readyMap 0)] (newHub 0 2) = .ok h' ∧
      IsReady h'.node = true ∧
      ∀ m ∈ [marshal (readyMap 1), marshal (echoMap 1 1), marshal (readyMap 0)],
        m ∈ h'.processed :=
  have key := IsReady_iff_all_readys_processed sampleExt 0 2 3
    [marshal (readyMap 1), marshal (echoMap 1 1), marshal (readyMap 0)]
  (key.2.2 (by decide) (by decide) (by decide) (by decide) (by decide)).elim
    fun h' hp => ⟨h', hp, (key.1 h' hp).2.2.2.1 (by decide), (key.1 h' hp).2.1⟩

end TestHub

namespace PeerModel

/-! ## Reliable delivery in the model of the peer hub -/

theorem Lookup_after_registration (verify : Fingerprint → List Nat → AccountKey → Bool)
    (p : Peer) (r : RegistrationRecord)
    (hv : verify r.fingerprint r.signature r.accountKey = true) :
    Lookup (OnReceiveRegistration verify p r) r.accountKey = some r.fingerprint := by
  simp [Lookup, OnReceiveRegistration, hv, List.lookup]

/-- C2. In the model of the hub built from the specification: let hub `b` have a
handler installed. For every payload, if hub `a` resolves the account key to the
transport identity of `b` (hub `b` is registered at `a`), a reliable
`SendMessageToPeer` from `a` writes one frame, and on receiving it `b` invokes
its handler once more, with exactly the payload sent. If `a` has not seen the
registration yet, the send is kept pending, and after the valid registration of
`b` arrives, one retry pass delivers the payload to the handler of `b` in the
same way and leaves nothing pending. -/
theorem reliable_send_reaches_handler (verify : Fingerprint → List Nat → AccountKey → Bool)
    (capacity : Nat) (a b : Peer) (keyB : AccountKey) (payload : List Nat)
    (hh : b.handlerInstalled = true) :
    (Lookup a keyB = some b.identity →
      (SendMessageToPeer a keyB payload true).1 = a ∧
      ∃ w, (SendMessageToPeer a keyB payload true).2 = some w ∧
        (receive verify capacity b w).handled = b.handled ++ [payload]) ∧
    (∀ (r : RegistrationRecord) (ceiling : Nat), Lookup a keyB = none → a.pending = [] →
      r.accountKey = keyB → r.fingerprint = b.identity →
      verify r.fingerprint r.signature r.accountKey = true →
      (SendMessageToPeer a keyB payload true).2 = none ∧
      (receiveAll verify capacity b
        (retryPending ceiling (Dispatch verify capacity (SendMessageToPeer a keyB payload true).1
          (.registration r))).2).handled = b.handled ++ [payload] ∧
      (retryPending ceiling (Dispatch verify capacity (SendMessageToPeer a keyB payload true).1
          (.registration r))).1.pending = []) := by
  constructor
  · intro hreg
    refine ⟨by simp [SendMessageToPeer, hreg],
      (b.identity, { length := payload.length, payload := payload }),
      by simp [SendMessageToPeer, hreg], ?_⟩
    simp [receive, Dispatch, hh]
  · intro r ceiling hnone hpend hkey hfp hv
    subst hkey
    have hl := Lookup_after_registration verify
      { a with pending :=
          [{ accountKey := r.accountKey,
             frame := { length := payload.length, payload := payload },
             reliable := true, attemptCount := 0 }] } r hv
    have hs : (SendMessageToPeer a r.accountKey payload true).1 =
        { a with pending :=
          [{ accountKey := r.accountKey,
             frame := { length := payload.length, payload := payload },
             reliable := true, attemptCount := 0 }] } := by
      simp [SendMessageToPeer, hnone, hpend]
    refine ⟨by simp [SendMessageToPeer, hnone], ?_, ?_⟩
    · rw [hs]
      have hp : (OnReceiveRegistration verify
          { a with pending :=
            [{ accountKey := r.accountKey,
               frame := { length := payload.length, payload := payload },
               reliable := true, attemptCount := 0 }] } r).pending =
          [{ accountKey := r.accountKey,
             frame := { length := payload.length, payload := payload },
             reliable := true, attemptCount := 0 }] := by
        simp [OnReceiveRegistration, hv]
      simp only [Dispatch, retryPending, hp, List.filterMap_cons, hl, Option.map_some',
        List.filterMap_nil, receiveAll, List.foldl_cons, List.foldl_nil, receive, hfp, if_true,
        hh]
    · rw [hs]
      have hp : (OnReceiveRegistration verify
          { a with pending :=
            [{ accountKey := r.accountKey,
               frame := { length := payload.length, payload := payload },
               reliable := true, attemptCount := 0 }] } r).pending =
          [{ accountKey := r.accountKey,
             frame := { length := payload.length, payload := payload },
             reliable := true, attemptCount := 0 }] := by
        simp [OnReceiveRegistration, hv]
      simp [Dispatch, retryPending, hp, hl]

theorem reliable_send_reaches_handler_witness :
    ∃ w, (SendMessageToPeer
        (samplePeer [1] [([9], { accountKey := [9], fingerprint := [2], signature := [9, 2] })])
        [9] [112, 105, 110, 103] true).2 = some w ∧
      (receive sampleVerify 4 (SetStreamHandlerFn (samplePeer [2] [])) w).handled
        = (SetStreamHandlerFn (samplePeer [2] [])).handled ++ [[112, 105, 110, 103]] :=
  ((reliable_send_reaches_handler sampleVerify 4
    (samplePeer [1] [([9], { accountKey := [9], fingerprint := [2], signature := [9, 2] })])
    (SetStreamHandlerFn (samplePeer [2] [])) [9] [112, 105, 110, 103] (by decide)).1
    (by decide)).2

end PeerModel
